import Mathlib

/-!
Scope selectors and positional masking of `vale`.

A shallow embedding of `internal/check/scope.go` (selectors, scopes, `Matches`)
and of `Substitute` from `internal/core/util.go`, with the properties of the
selector algebra and of the masking primitive proved about the embedding.

A Go string is modelled as the list of its Unicode code points (`List Char`);
the text handled here is valid UTF-8, on which the byte-wise search of
`strings.Index` and `strings.Split` finds exactly the code-point-aligned
occurrences.
-/

namespace Vale

/-! ## The parts of Go's `strings` and `unicode` packages that the code uses -/

/-- Go's `unicode.IsSpace`: the Latin-1 spaces `\t \n \v \f \r`, space, U+0085, U+00A0,
and the code points of category Z. -/
def isSpace (c : Char) : Bool :=
  let n := c.toNat
  (9 ≤ n && n ≤ 13) || n = 32 || n = 0x85 || n = 0xA0 || n = 0x1680 ||
    (0x2000 ≤ n && n ≤ 0x200A) || n = 0x2028 || n = 0x2029 || n = 0x202F ||
    n = 0x205F || n = 0x3000

/-- Removes the trailing white space of a string. -/
def trimRight : List Char → List Char
  | [] => []
  | c :: cs =>
    match trimRight cs with
    | [] => if isSpace c then [] else [c]
    | r :: rs => c :: r :: rs

/-- Go's `strings.TrimSpace`: the string without its leading and trailing white space. -/
def TrimSpace (s : List Char) : List Char :=
  trimRight (s.dropWhile isSpace)

/-- Go's `strings.Split(s, sep)` for a separator of one character: the pieces of `s`
between the occurrences of `sep`, always at least one piece. -/
def Split (s : List Char) (sep : Char) : List (List Char) :=
  match s with
  | [] => [[]]
  | c :: cs =>
    if c = sep then [] :: Split cs sep
    else
      match Split cs sep with
      | [] => [[c]]
      | p :: ps => (c :: p) :: ps

/-- Go's `strings.HasPrefix(s, "~")`. -/
def HasPrefixTilde (s : List Char) : Bool :=
  match s with
  | c :: _ => c = '~'
  | [] => false

/-- Go's `strings.TrimPrefix(s, "~")`. -/
def TrimPrefixTilde (s : List Char) : List Char :=
  if HasPrefixTilde s then s.drop 1 else s

/-- Go's `strings.Index(s, substr)`: the index of the first instance of `substr` in `s`,
or -1 if `substr` is not present in `s`. -/
def Index (s substr : List Char) : Int :=
  if substr.isPrefixOf s then 0
  else
    match s with
    | [] => -1
    | _ :: rest =>
      let i := Index rest substr
      if i < 0 then -1 else i + 1

/-- Go's `strings.Map(mapping, s)` for a mapping that drops no character: the string with
every character replaced by its image. -/
def Map (mapping : Char → Char) (s : List Char) : List Char :=
  s.map mapping

/-- Go's `strings.Replace(s, old, new, 1)`: `s` itself when `old` and `new` are equal or
`old` does not occur, and otherwise `s` with its first instance of `old` (the empty
instance at index 0 when `old` is empty) replaced by `new`. -/
def ReplaceFirst (s old new : List Char) : List Char :=
  if old = new then s
  else if Index s old < 0 then s
  else
    let j := if old.length = 0 then 0 else (Index s old).toNat
    s.take j ++ new ++ s.drop (j + old.length)

/-! ## `internal/core/util.go` -/

/-- The loop of `StringInSlice`: `slice` contains the string `a`. -/
def StringInSlice (a : List Char) (slice : List (List Char)) : Bool :=
  match slice with
  | [] => false
  | b :: rest => if a = b then true else StringInSlice a rest

/-- The loop of `AllStringsInSlice`: `slice` contains every one of `strings`. -/
def AllStringsInSlice (strings : List (List Char)) (slice : List (List Char)) : Bool :=
  match strings with
  | [] => true
  | s :: rest => if !StringInSlice s slice then false else AllStringsInSlice rest slice

/-- The function `Substitute`: replaces the substring `sub` with a string of `char`, the
newlines of `sub` kept; the Boolean tells whether `sub` was found. -/
def Substitute (src sub : List Char) (char : Char) : List Char × Bool :=
  let idx := Index src sub
  if idx < 0 then (src, false)
  else
    let repl := Map (fun r => if r ≠ '\n' then char else r) sub
    (ReplaceFirst src sub repl, true)

/-! ## `internal/check/scope.go` -/

/-- A Selector represents a named section of text. -/
structure Selector where
  Value : List (List Char)
  Negated : Bool
  deriving DecidableEq, Repr

/-- A Scope: the Go map from each scope string to its selectors, kept as an association
list with one entry per key, and the `Sized` flag. -/
structure Scope where
  Selectors : List (List Char × List Selector)
  Sized : Bool
  deriving DecidableEq, Repr

/-- The loop of `NewSelector`, at index `i` with the `parts` and `negated` so far. -/
def NewSelector.loop (i : Nat) (value : List (List Char)) (parts : List (List Char))
    (negated : Bool) : Selector :=
  match value with
  | [] => { Value := parts, Negated := negated }
  | m :: rest =>
    let m := TrimSpace m
    if i = 0 ∧ HasPrefixTilde m = true then
      NewSelector.loop (i + 1) rest (parts ++ [TrimPrefixTilde m]) true
    else
      NewSelector.loop (i + 1) rest (parts ++ [m]) negated

/-- The function `NewSelector`. -/
def NewSelector (value : List (List Char)) : Selector :=
  NewSelector.loop 0 value [] false

/-- The method `Sections`: the dot-split pieces of every element of `Value`, in order. -/
def Selector.Sections (s : Selector) : List (List Char) :=
  s.Value.foldl (fun parts m => parts ++ Split m '.') []

/-- The method `Contains`: all of `sel`'s sections are in `s`. -/
def Selector.Contains (s : Selector) (sel : Selector) : Bool :=
  AllStringsInSlice sel.Sections s.Sections

/-- The method `Has`: `s` has a part equal to `scope`. -/
def Selector.Has (s : Selector) (scope : List Char) : Bool :=
  StringInSlice scope s.Sections

/-- The method `isSized`. -/
def Selector.isSized (s : Selector) : Bool :=
  let parts := s.Sections
  (s.Has "raw".toList || s.Has "summary".toList || s.Has "text".toList) && parts.length = 2

/-- The assignment `scope[k] = v` on the Go map. -/
def mapSet (scope : List (List Char × List Selector)) (k : List Char) (v : List Selector) :
    List (List Char × List Selector) :=
  match scope with
  | [] => [(k, v)]
  | (k0, v0) :: rest => if k0 = k then (k, v) :: rest else (k0, v0) :: mapSet rest k v

/-- The inner loop of `NewScope`: the selectors of the `&`-separated parts of one string. -/
def NewScope.selectors (v : List Char) : List Selector :=
  (Split v '&').foldl (fun selectors part => selectors ++ [NewSelector (Split part '.')]) []

/-- The function `NewScope`. -/
def NewScope (value : List (List Char)) : Scope :=
  let scope := value.foldl (fun scope v => mapSet scope v (NewScope.selectors v)) []
  let sized :=
    match value with
    | [v0] => v0 = "raw".toList || v0 = "summary".toList || v0 = "text".toList
    | _ => false
  { Selectors := scope, Sized := sized }

/-- The test of the inner loop of `Matches`: the clause `part` lets the candidate through. -/
def Scope.partOk (candidate : Selector) (part : Selector) : Bool :=
  let matched := candidate.Contains part
  !((!part.Negated && !matched) || (part.Negated && matched))

/-- The method `Matches`: the scope `s` matches the block scope `blk`. The two nested
loops return false at the first clause that fails and true when none does. -/
def Scope.Matches (s : Scope) (blk : List Char) : Bool :=
  let candidate := NewSelector [blk]
  if candidate.isSized then s.Sized
  else s.Selectors.all (fun sel => sel.2.all (fun part => Scope.partOk candidate part))

/-! ## The clauses of a scope string, in the words of the specification -/

/-- The dot-separated segments of a clause, each trimmed of surrounding white space. -/
def clauseTrimmed (clause : List Char) : List (List Char) :=
  (Split clause '.').map TrimSpace

/-- A clause is negated when it has a leading `~`. -/
def clauseNegated (clause : List Char) : Bool :=
  match clauseTrimmed clause with
  | s0 :: _ => HasPrefixTilde s0
  | [] => false

/-- The segments of a clause: its trimmed segments, the first without the `~` marker. -/
def clauseSegments (clause : List Char) : List (List Char) :=
  match clauseTrimmed clause with
  | s0 :: rest => TrimPrefixTilde s0 :: rest
  | [] => []

/-- A clause passes on the segments `segs` of a candidate: a clause without a leading `~`
when each of its segments is among `segs`, a clause with a leading `~` when at least one of
its segments is absent from them. -/
def clausePassesIn (clause : List Char) (segs : List (List Char)) : Prop :=
  if clauseNegated clause = true then ∃ seg ∈ clauseSegments clause, seg ∉ segs
  else ∀ seg ∈ clauseSegments clause, seg ∈ segs

/-- A clause passes on a candidate path, read through its dot-split segments. -/
def clausePasses (clause : List Char) (path : List Char) : Prop :=
  clausePassesIn clause (Split path '.')

/-- The segments of a candidate path as `Matches` reads them: the dot-split segments of the
path without its surrounding white space and without a leading `~`. -/
def candidateSegments (path : List Char) : List (List Char) :=
  Split (TrimPrefixTilde (TrimSpace path)) '.'

/-- All the selectors of a scope expression, over every entry of its map. -/
def selectorsOf (e : Scope) : List Selector :=
  (e.Selectors.map (fun kv => kv.2)).flatten

/-- The expression has exactly one selector and the sole segment of that selector is
`raw`, `summary` or `text`. -/
def singleSizedSelector (e : Scope) : Bool :=
  match selectorsOf e with
  | [sel] =>
    sel.Sections = ["raw".toList] || sel.Sections = ["summary".toList] ||
      sel.Sections = ["text".toList]
  | _ => false

/-- An expression whose only selector has no segment and is not negated. -/
def emptySelectorScope : Scope :=
  { Selectors := [("x".toList, [{ Value := [], Negated := false }])], Sized := false }

/-- An expression whose only selector has no segment and is negated. -/
def emptyNegatedScope : Scope :=
  { Selectors := [("x".toList, [{ Value := [], Negated := true }])], Sized := false }

/-- A sized expression whose only selector has no segment and is negated. -/
def emptyNegatedSizedScope : Scope :=
  { Selectors := [("raw".toList, [{ Value := [], Negated := true }])], Sized := true }

/-! ## The reference definition of the masking primitive -/

/-- The string `sub` occurs in `src` at index `i`. -/
def occursAt (src sub : List Char) (i : Nat) : Prop :=
  (src.drop i).take sub.length = sub

instance (src sub : List Char) (i : Nat) : Decidable (occursAt src sub i) := by
  unfold occursAt
  infer_instance

/-- The mask of `sub`: every character that is not a newline replaced by `filler`, the
newlines kept. -/
def mask (sub : List Char) (filler : Char) : List Char :=
  sub.map (fun c => if c = '\n' then '\n' else filler)

/-- The reference definition of `Substitute`: `(src, false)` when `sub` does not occur in
`src`, and otherwise, with `i` the index of the first occurrence, the text before `i`, the
mask of `sub`, and the text after the occurrence, with `true`. -/
def SubstituteRef (src sub : List Char) (filler : Char) : List Char × Bool :=
  match (List.range (src.length + 1)).find? (fun i => decide (occursAt src sub i)) with
  | none => (src, false)
  | some i => (src.take i ++ mask sub filler ++ src.drop (i + sub.length), true)

/-! ## Byte lengths and byte offsets of Go strings -/

/-- Go's `utf8.RuneLen`: the number of bytes of the UTF-8 encoding of a character. -/
def RuneLen (c : Char) : Nat :=
  let n := c.toNat
  if n < 0x80 then 1 else if n < 0x800 then 2 else if n < 0x10000 then 3 else 4

/-- Go's `len` of a string: the number of its bytes. -/
def byteLen (s : List Char) : Nat :=
  (s.map RuneLen).sum

/-- Go's `strings.Index` as the code receives it: the byte offset of the first instance of
`substr` in `s`, or -1 if `substr` is not present. -/
def byteIndex (s substr : List Char) : Int :=
  let i := Index s substr
  if i < 0 then -1 else (byteLen (s.take i.toNat) : Int)

/-! ## The method `Equal` of `internal/check/scope.go` -/

/-- The loop of `Equal` at index `i`: false at the first element of `value` that differs from
the element of `other` with the same index, true when none does. The loop runs only when
the two sequences have the same length, so that the index is in range. -/
def Selector.Equal.loop (i : Nat) (value other : List (List Char)) : Bool :=
  match value with
  | [] => true
  | v :: rest => if other[i]? ≠ some v then false else Selector.Equal.loop (i + 1) rest other

/-- The method `Equal`: determines if `sel == s`. -/
def Selector.Equal (s : Selector) (sel : Selector) : Bool :=
  if s.Value.length = sel.Value.length then Selector.Equal.loop 0 s.Value sel.Value
  else false

/-! ## `internal/lint/ast.go`: the scope of a tag history -/

/-- Go's `strings.Join(elems, sep)`. -/
def Join (elems : List (List Char)) (sep : List Char) : List Char :=
  match elems with
  | [] => []
  | [e] => e
  | e :: rest => e ++ sep ++ Join rest sep

/-- Go's `strings.TrimPrefix(s, pre)`. -/
def TrimPrefix (s pre : List Char) : List Char :=
  if pre.isPrefixOf s then s.drop pre.length else s

/-- The variable `inlineTags`. -/
def inlineTags : List (List Char) :=
  ["b".toList, "big".toList, "i".toList, "small".toList, "abbr".toList, "acronym".toList,
    "cite".toList, "dfn".toList, "em".toList, "kbd".toList, "strong".toList, "a".toList,
    "br".toList, "img".toList, "span".toList, "sub".toList, "sup".toList, "code".toList,
    "tt".toList, "del".toList]

/-- The map `tagToScope`, as the list of its entries. -/
def tagToScope : List (List Char × List Char) :=
  [("th".toList, "text.table.header".toList),
    ("td".toList, "text.table.cell".toList),
    ("caption".toList, "text.table.caption".toList),
    ("li".toList, "text.list".toList),
    ("blockquote".toList, "text.blockquote".toList),
    ("figcaption".toList, "text.figure.caption".toList),
    ("strong".toList, "strong".toList),
    ("b".toList, "strong".toList),
    ("a".toList, "link".toList),
    ("em".toList, "emphasis".toList),
    ("i".toList, "emphasis".toList),
    ("code".toList, "code".toList)]

/-- The two-valued lookup `v, ok := m[k]` on a Go map of strings: the value and `true` for
a key of the map, the empty string and `false` otherwise. -/
def mapLookup (m : List (List Char × List Char)) (k : List Char) : List Char × Bool :=
  match m with
  | [] => ([], false)
  | (k0, v0) :: rest => if k0 = k then (v0, true) else mapLookup rest k

/-- The function `getScope`; `none` stands for the failure of `tags[0]` on an empty
history. The regular expression `heading` is declared outside the given sources and is a
parameter, read through `MatchString`. -/
def getScope (heading : List Char → Bool) (tags : List (List Char)) (new ext : List Char) :
    Option (List Char) :=
  match tags with
  | [] => none
  | root :: _ =>
    let root := if root = "ul".toList then "li".toList
      else if root = "p".toList then "".toList else root
    let lookup := mapLookup tagToScope root
    let scope := if !lookup.2 && heading root then "text.heading.".toList ++ root
      else lookup.1
    let ctx := Join [scope, new] ".".toList
    some (TrimPrefix ctx ".".toList ++ ext)

/-- The base of a scope path as the specification describes it, from the root tag of the
history: `text.list.` for `ul`, nothing for `p`, the table entry and a dot for a root with
a table entry, `text.heading.`, the root and a dot for a root without table entry that
matches the heading pattern, and nothing otherwise. -/
def scopeBase (heading : List Char → Bool) (root : List Char) : List Char :=
  if root = "ul".toList then "text.list.".toList
  else if root = "p".toList then []
  else if (mapLookup tagToScope root).2 = true then (mapLookup tagToScope root).1 ++ ['.']
  else if heading root = true then "text.heading.".toList ++ root ++ ['.']
  else []

/-- Modelled from the spec: the heading pattern, which the sources use as `heading` and
declare elsewhere; here the HTML heading tags, `h` followed by one digit. -/
def headingTag (tag : List Char) : Bool :=
  match tag with
  | [h, d] => h = 'h' && d.isDigit
  | _ => false

/-! ## `internal/lint/ast.go`: the dispatch of blocks -/

/-- Go's `strings.TrimLeft(s, " ")`. -/
def TrimLeftSpaces (s : List Char) : List Char :=
  s.dropWhile (fun c => c = ' ')

/-- An `html.Attribute`, with the fields that the code reads. -/
structure Attribute where
  Key : List Char
  Val : List Char
  deriving DecidableEq, Repr

/-- An `html.Token`, with the fields that the code reads. -/
structure Token where
  Data : List Char
  Attr : List Attribute
  deriving DecidableEq, Repr

/-- The state of the `walker`, with the fields that the code reads. -/
structure walker where
  tagHistory : List (List Char)
  lines : Nat
  context : List Char
  deriving DecidableEq, Repr

/-- A `core.File`, with the fields that the code reads or writes: `Summary` is the content
of the buffer, `Metrics` the entries of the map. -/
structure File where
  Content : List Char
  Summary : List Char
  RealExt : List Char
  Lines : List (List Char)
  Metrics : List (List Char × Int)
  Comments : List (List Char)
  deriving DecidableEq, Repr

/-- An `nlp.Block`, kept as the call that builds it: the constructors `NewLinedBlock` and
`NewBlock` of package `nlp` and the method `block` of the walker are declared outside the
given sources. The pointer to the tagging state that `NewLinedBlock` also receives is left
out. -/
inductive Block where
  | NewLinedBlock (ctx txt sel : List Char) (line : Int)
  | NewBlock (ctx txt sel : List Char)
  | block (state : walker) (txt scope : List Char)
  deriving DecidableEq, Repr

/-- The text that a block is built with. -/
def Block.Text : Block → List Char
  | .NewLinedBlock _ txt _ _ => txt
  | .NewBlock _ txt _ => txt
  | .block _ txt _ => txt

/-- The scope that a block is built with. -/
def Block.Scope : Block → List Char
  | .NewLinedBlock _ _ sel _ => sel
  | .NewBlock _ _ sel => sel
  | .block _ _ scope => scope

/-- A call of one of the two checks that the walker hands blocks to, with its arguments;
the file is the state of the document at the time of the call. -/
inductive Call where
  | lintBlock (f : File) (blk : Block) (lines : Nat) (pad : Int) (lookup : Bool)
  | lintProse (f : File) (blk : Block) (lines : Nat)
  deriving DecidableEq, Repr

/-- The block of a call. -/
def Call.blk : Call → Block
  | .lintBlock _ blk _ _ _ => blk
  | .lintProse _ blk _ => blk

/-- The file of a call. -/
def Call.file : Call → File
  | .lintBlock f _ _ _ _ => f
  | .lintProse f _ _ => f

/-- The `Linter`, with what the code uses of it: the methods `lintBlock` and `lintProse`,
declared outside the given sources, which may change the file and return an error or
none, and the configured `SkippedScopes`. -/
structure Linter (ε : Type) where
  lintBlock : File → Block → Nat → Int → Bool → File × Option ε
  lintProse : File → Block → Nat → File × Option ε
  SkippedScopes : List (List Char)

/-- The statement `m[k] += 1` on a Go map of counters. -/
def mapIncr (m : List (List Char × Int)) (k : List Char) : List (List Char × Int) :=
  match m with
  | [] => [(k, 1)]
  | (k0, v0) :: rest => if k0 = k then (k0, v0 + 1) :: rest else (k0, v0) :: mapIncr rest k

/-- The loop of `lintSizedScopes` over the blocks, with the calls made so far: it stops at
the first error. The result is the file, the calls in order, and the error returned. -/
def lintSizedScopes.loop {ε : Type} (l : Linter ε) (f : File) (blks : List Block)
    (calls : List Call) : File × List Call × Option ε :=
  match blks with
  | [] => (f, calls, none)
  | blk :: rest =>
    match l.lintBlock f blk f.Lines.length 0 true with
    | (f1, some err) => (f1, calls ++ [Call.lintBlock f blk f.Lines.length 0 true], some err)
    | (f1, none) =>
      lintSizedScopes.loop l f1 rest (calls ++ [Call.lintBlock f blk f.Lines.length 0 true])

/-- The method `lintSizedScopes`. The method `ResetComments` of the file is declared outside
the given sources and is a parameter. -/
def lintSizedScopes {ε : Type} (l : Linter ε) (ResetComments : File → File) (f : File) :
    File × List Call × Option ε :=
  let f := ResetComments f
  let summary := Block.NewLinedBlock f.Content f.Summary ("summary".toList ++ f.RealExt) 0
  let raw := Block.NewBlock [] (Join f.Lines []) ("raw".toList ++ f.RealExt)
  lintSizedScopes.loop l f [summary, raw] []

/-- The loop of `lintTags` over the attributes of an `img` token. -/
def lintTags.loop {ε : Type} (l : Linter ε) (f : File) (state : walker) (ignored : Bool)
    (attrs : List Attribute) (calls : List Call) : File × List Call × Option ε :=
  match attrs with
  | [] => (f, calls, none)
  | a :: rest =>
    if a.Key = "alt".toList ∧ ignored = false then
      let blk := Block.block state a.Val ("text.attr.".toList ++ a.Key)
      match l.lintBlock f blk state.lines 0 false with
      | (f1, some err) => (f1, calls ++ [Call.lintBlock f blk state.lines 0 false], some err)
      | (f1, none) =>
        lintTags.loop l f1 state ignored rest
          (calls ++ [Call.lintBlock f blk state.lines 0 false])
    else lintTags.loop l f state ignored rest calls

/-- The method `lintTags`. -/
def lintTags {ε : Type} (l : Linter ε) (f : File) (state : walker) (tok : Token) :
    File × List Call × Option ε :=
  let ignored := StringInSlice "alt".toList l.SkippedScopes
  if tok.Data = "img".toList then lintTags.loop l f state ignored tok.Attr []
  else (f, [], none)

/-- The loop of `lintScope` over the tag history, and what follows it when no tag of the
history has a scope. -/
def lintScope.loop {ε : Type} (l : Linter ε) (heading : List Char → Bool) (f : File)
    (state : walker) (txt : List Char) (tags : List (List Char)) :
    File × List Call × Option ε :=
  match tags with
  | [] =>
    let f := { f with Summary := f.Summary ++ (txt ++ ['\n', '\n']) }
    let b := Block.block state txt "txt".toList
    let r := l.lintProse f b state.lines
    (r.1, [Call.lintProse f b state.lines], r.2)
  | tag :: rest =>
    let lookup := mapLookup tagToScope tag
    if (lookup.2 && !StringInSlice tag inlineTags) || heading tag then
      let scope := lookup.1
      let f :=
        if scope = "text.blockquote".toList ∨ scope = "text.list".toList then
          { f with Summary := f.Summary ++ (txt ++ ['\n', '\n']) }
        else f
      let scope := if !lookup.2 then "text.heading.".toList ++ tag else scope
      let f := { f with Metrics := mapIncr f.Metrics (TrimPrefix scope "text.".toList) }
      let txt := TrimLeftSpaces txt
      let b := Block.block state txt (scope ++ f.RealExt)
      let r := l.lintBlock f b state.lines 0 false
      (r.1, [Call.lintBlock f b state.lines 0 false], r.2)
    else lintScope.loop l heading f state txt rest

/-- The method `lintScope`. -/
def lintScope {ε : Type} (l : Linter ε) (heading : List Char → Bool) (f : File)
    (state : walker) (txt : List Char) : File × List Call × Option ε :=
  lintScope.loop l heading f state txt state.tagHistory

/-- A tag gives the block its scope in `lintScope`: it has a table entry and is not inline,
or it matches the heading pattern. -/
def scopedTag (heading : List Char → Bool) (tag : List Char) : Bool :=
  ((mapLookup tagToScope tag).2 && !StringInSlice tag inlineTags) || heading tag

/-- A linter whose checks change nothing and return no error, for the examples. -/
def quietLinter (skipped : List (List Char)) : Linter Unit :=
  { lintBlock := fun f _ _ _ _ => (f, none),
    lintProse := fun f _ _ => (f, none),
    SkippedScopes := skipped }

/-- A document with the extension `.md`, for the examples. -/
def exampleFile : File :=
  { Content := "a b".toList, Summary := "s".toList, RealExt := ".md".toList,
    Lines := ["a ".toList, "b".toList], Metrics := [], Comments := [] }

/-- The block scoped `summary` and the extension, built from the summary buffer. -/
def summaryBlock (f : File) : Block :=
  Block.NewLinedBlock f.Content f.Summary ("summary".toList ++ f.RealExt) 0

/-- The block scoped `raw` and the extension, whose text is the concatenation of the
original source lines. -/
def rawBlock (f : File) : Block :=
  Block.NewBlock [] f.Lines.flatten ("raw".toList ++ f.RealExt)

/-! ## `TextToContext` of `internal/core/util.go` -/

/-- The Go slice `s[n:]` for a byte offset `n` inside the string; `none` when `n` is past
the end, where Go fails with a slice out of range, or inside a character, where the slice
is not a string of characters. -/
def dropBytes : List Char → Nat → Option (List Char)
  | s, 0 => some s
  | [], _ + 1 => none
  | c :: cs, n + 1 => if RuneLen c ≤ n + 1 then dropBytes cs (n + 1 - RuneLen c) else none

/-- The Go slice `s[:n]` for a byte offset `n` inside the string, with `none` as for
`dropBytes`. -/
def takeBytes : List Char → Nat → Option (List Char)
  | _, 0 => some []
  | [], _ + 1 => none
  | c :: cs, n + 1 =>
    if RuneLen c ≤ n + 1 then (takeBytes cs (n + 1 - RuneLen c)).map (fun t => c :: t)
    else none

/-- The Go slice `s[pos:]` for an integer `pos`; a negative `pos` is out of range. -/
def sliceFrom (s : List Char) (pos : Int) : Option (List Char) :=
  if pos < 0 then none else dropBytes s pos.toNat

/-- The Go slice `s[lo:hi]`. -/
def sliceBytes (s : List Char) (lo hi : Int) : Option (List Char) :=
  if lo < 0 ∨ hi < lo then none
  else (dropBytes s lo.toNat).bind (fun t => takeBytes t (hi - lo).toNat)

/-- A token of the tagger: its text and its part-of-speech tag. -/
structure nlp.Token where
  Text : List Char
  Tag : List Char
  deriving DecidableEq, Repr

/-- An `nlp.TaggedWord`: the line, the token and its span. -/
structure nlp.TaggedWord where
  Line : Nat
  Token : nlp.Token
  Span : List Int
  deriving DecidableEq, Repr

/-- The inner loop of `TextToContext` over the tokens of one line, with the masked `line`,
the position `pos` and the `context` so far; `none` when a slice of the line at `pos` fails.
Offsets and lengths are in bytes, as in the code. -/
def TextToContext.tokens (idx : Nat) (toks : List nlp.Token) (line : List Char) (pos : Int)
    (context : List nlp.TaggedWord) : Option (List nlp.TaggedWord) :=
  match toks with
  | [] => some context
  | tok :: rest =>
    if TrimSpace tok.Text ≠ [] then
      match sliceFrom line pos with
      | none => none
      | some tail =>
        let s := byteIndex tail tok.Text + pos
        let context :=
          if !StringInSlice tok.Tag ["''".toList, "``".toList] then
            context ++ [{ Line := idx + 1, Token := tok,
                          Span := [s + 1, s + (byteLen tok.Text : Int)] }]
          else context
        TextToContext.tokens idx rest (Substitute line tok.Text '*').1 s context
    else TextToContext.tokens idx rest line pos context

/-- The outer loop of `TextToContext` over the lines, from the index `idx`. -/
def TextToContext.lines (stripMarkdown : List Char → List Char)
    (TextToTokens : List Char → List nlp.Token) (idx : Nat) (lines : List (List Char))
    (context : List nlp.TaggedWord) : Option (List nlp.TaggedWord) :=
  match lines with
  | [] => some context
  | line :: rest =>
    let plain := stripMarkdown line
    match TextToContext.tokens idx (TextToTokens plain) line 0 context with
    | none => none
    | some context => TextToContext.lines stripMarkdown TextToTokens (idx + 1) rest context

/-- The function `TextToContext`. The function `stripMarkdown` and the tagger
`nlp.TextToTokens`, with its `meta` argument, are declared outside the given sources and
are parameters. -/
def TextToContext (stripMarkdown : List Char → List Char)
    (TextToTokens : List Char → List nlp.Token) (text : List Char) :
    Option (List nlp.TaggedWord) :=
  TextToContext.lines stripMarkdown TextToTokens 0 (Split text '\n') []

/-- A tagger for the examples: one token, tagged `NN`, for every word between spaces. -/
def wordTokens (plain : List Char) : List nlp.Token :=
  (Split plain ' ').map (fun w => { Text := w, Tag := "NN".toList })

/-! ## `internal/lint/ast.go`: the masked context, `clean` and `shouldBeSkipped` -/

/-- The `html.TokenType` of a token. -/
inductive TokenType where
  | ErrorToken
  | TextToken
  | StartTagToken
  | EndTagToken
  | SelfClosingTagToken
  | CommentToken
  | DoctypeToken
  deriving DecidableEq, Repr

/-- The scan of `strings.Fields`, with the field `cur` read so far. -/
def Fields.scan (s : List Char) (cur : List Char) : List (List Char) :=
  match s with
  | [] => if cur = [] then [] else [cur]
  | c :: cs =>
    if isSpace c then
      if cur = [] then Fields.scan cs [] else cur :: Fields.scan cs []
    else Fields.scan cs (cur ++ [c])

/-- Go's `strings.Fields(s)`: the pieces of `s` between runs of white space, none empty. -/
def Fields (s : List Char) : List (List Char) :=
  Fields.scan s []

/-- The inner loop of `updateCtx` over the words of a line that was not found. -/
def updateCtx.words (ctx : List Char) (ws : List (List Char)) : List Char :=
  match ws with
  | [] => ctx
  | w :: rest => updateCtx.words (Substitute ctx w '@').1 rest

/-- The outer loop of `updateCtx` over the lines of the text. -/
def updateCtx.lines (ctx : List Char) (ss : List (List Char)) : List Char :=
  match ss with
  | [] => ctx
  | s :: rest =>
    let r := Substitute ctx s '@'
    let ctx := r.1
    let found := r.2
    let ctx := if !found then updateCtx.words ctx (Fields s) else ctx
    updateCtx.lines ctx rest

/-- The function `updateCtx`. -/
def updateCtx (ctx txt : List Char) (tokt : TokenType) : List Char :=
  if (tokt = TokenType.TextToken ∨ tokt = TokenType.CommentToken) ∧ txt ≠ [] then
    updateCtx.lines ctx (Split txt '\n')
  else ctx

/-- The function `updateContext`. -/
def updateContext (ctx : List Char) (queue : List (List Char)) : List Char :=
  match queue with
  | [] => ctx
  | s :: rest => updateContext (updateCtx ctx s TokenType.TextToken) rest

/-- Go's `utf8.DecodeRuneInString(s)`, its first result: the first character of `s`, or
`utf8.RuneError`, U+FFFD, for the empty string. -/
def DecodeRuneInString (s : List Char) : Char :=
  match s with
  | [] => Char.ofNat 0xFFFD
  | c :: _ => c

/-- The function `clean`. -/
def clean (txt attr : List Char) (skip inline : Bool) : List Char × Bool :=
  let punct := [".".toList, "?".toList, "!".toList, ",".toList, ":".toList, ";".toList]
  let first := DecodeRuneInString txt
  let starter := StringInSlice [first] punct && !skip
  let txt := if skip || attr = txt || inline then (Substitute txt txt '*').1 else txt
  let skip := if skip || attr = txt then false else skip
  let txt := if inline && !starter then " ".toList ++ txt else txt
  (txt, skip)

/-- The loop of `shouldBeSkipped`, about to read the index `i` when called at `i + 1`, with
`n` the length of the history; at 0 the loop is over. -/
def shouldBeSkipped.loop (tagHistory : List (List Char)) (n : Nat) : Nat → Bool
  | 0 => false
  | i + 1 =>
    if tagHistory[i]? = some "span".toList then shouldBeSkipped.loop tagHistory n i
    else decide (tagHistory[i]? = some "tt".toList) && decide (i + 1 ≠ n)

/-- The function `shouldBeSkipped`. -/
def shouldBeSkipped (tagHistory : List (List Char)) (ext : List Char) : Bool :=
  if ext = ".rst".toList then
    shouldBeSkipped.loop tagHistory tagHistory.length tagHistory.length
  else false

/-! ## The leading-space rule and the line structure, in the words of the specification -/

/-- The first character of the text is sentence punctuation, one of `. ? ! , : ;`. -/
def startsWithPunct (txt : List Char) : Bool :=
  match txt with
  | [] => false
  | c :: _ => c = '.' || c = '?' || c = '!' || c = ',' || c = ':' || c = ';'

/-- The text is masked by `clean`: `skip` is set, the text equals `attr`, or `inline` is
set. -/
def isMasked (txt attr : List Char) (skip inline : Bool) : Bool :=
  skip || decide (attr = txt) || inline

/-- The text that `clean` returns before the leading-space rule: the mask of the whole text
when it is masked, the text itself otherwise. -/
def cleanBody (txt attr : List Char) (skip inline : Bool) : List Char :=
  if isMasked txt attr skip inline = true then mask txt '*' else txt

/-- Two strings have the same number of characters, with newlines at exactly the same
positions. -/
def sameLines (a b : List Char) : Prop :=
  a.length = b.length ∧ ∀ k : Nat, a[k]? = some '\n' ↔ b[k]? = some '\n'

/-- The scope that `lintScope` gives the block at a tag: the table entry of the tag, or the
heading scope of the tag when it has no table entry. -/
def blockScope (tag : List Char) : List Char :=
  if (mapLookup tagToScope tag).2 = true then (mapLookup tagToScope tag).1
  else "text.heading.".toList ++ tag

/-- The file with the text and a blank line appended to its summary buffer. -/
def appendSummary (f : File) (txt : List Char) : File :=
  { f with Summary := f.Summary ++ (txt ++ ['\n', '\n']) }

/-- The file with the counter of a scope, named without its `text.`, raised by one. -/
def countScope (f : File) (scope : List Char) : File :=
  { f with Metrics := mapIncr f.Metrics (TrimPrefix scope "text.".toList) }

/-- A linter whose checks note the scope of the block in the comments of the file and
return the error `stop`, for the examples. -/
def stoppingLinter (skipped : List (List Char)) : Linter (List Char) :=
  { lintBlock := fun f blk _ _ _ =>
      ({ f with Comments := f.Comments ++ [blk.Scope] }, some "stop".toList),
    lintProse := fun f blk _ =>
      ({ f with Comments := f.Comments ++ [blk.Scope] }, some "stop".toList),
    SkippedScopes := skipped }

/-! ## Lemmas on the string functions -/

theorem StringInSlice_iff (a : List Char) (slice : List (List Char)) :
    StringInSlice a slice = true ↔ a ∈ slice := by
  induction slice with
  | nil => simp [StringInSlice]
  | cons b rest ih =>
    unfold StringInSlice
    by_cases h : a = b
    · simp [h]
    · simp [h, ih]

theorem AllStringsInSlice_iff (strings slice : List (List Char)) :
    AllStringsInSlice strings slice = true ↔ ∀ s ∈ strings, s ∈ slice := by
  induction strings with
  | nil => simp [AllStringsInSlice]
  | cons s rest ih =>
    unfold AllStringsInSlice
    by_cases h : StringInSlice s slice = true
    · have hs := (StringInSlice_iff s slice).1 h
      simp [h, ih, hs]
    · have hs : s ∉ slice := fun hm => h ((StringInSlice_iff s slice).2 hm)
      simp [h, hs]

theorem foldl_append_eq {α β : Type} (f : α → List β) (l : List α) (acc : List β) :
    l.foldl (fun parts m => parts ++ f m) acc = acc ++ (l.map f).flatten := by
  induction l generalizing acc with
  | nil => simp
  | cons a l ih => simp [ih, List.append_assoc]

theorem Split_ne_nil (s : List Char) (sep : Char) : Split s sep ≠ [] := by
  cases s with
  | nil => simp [Split]
  | cons c cs =>
    unfold Split
    by_cases h : c = sep
    · simp [h]
    · simp only [h, if_false]
      split <;> simp

theorem Split_cons_sep (cs : List Char) (sep : Char) :
    Split (sep :: cs) sep = [] :: Split cs sep := by
  rw [Split]; simp

theorem Split_cons_ne (c : Char) (cs : List Char) (sep : Char) (h : c ≠ sep)
    (p : List Char) (ps : List (List Char)) (hs : Split cs sep = p :: ps) :
    Split (c :: cs) sep = (c :: p) :: ps := by
  rw [Split]; simp [h, hs]

theorem Split_exists_cons (s : List Char) (sep : Char) :
    ∃ p ps, Split s sep = p :: ps := by
  cases h : Split s sep with
  | nil => exact absurd h (Split_ne_nil s sep)
  | cons p ps => exact ⟨p, ps, rfl⟩

theorem Split_exists_last (s : List Char) (sep : Char) :
    ∃ init last, Split s sep = init ++ [last] := by
  have h := Split_ne_nil s sep
  exact ⟨(Split s sep).dropLast, (Split s sep).getLast h, (List.dropLast_append_getLast h).symm⟩

/-- A string without the separator is its own single piece. -/
theorem Split_of_not_mem (s : List Char) (sep : Char) (h : sep ∉ s) : Split s sep = [s] := by
  induction s with
  | nil => simp [Split]
  | cons c cs ih =>
    have hc : c ≠ sep := fun e => h (by simp [e])
    have hcs : sep ∉ cs := fun e => h (by simp [e])
    exact Split_cons_ne c cs sep hc cs [] (ih hcs)

/-- No piece of a split contains the separator. -/
theorem not_mem_of_mem_Split (s : List Char) (sep : Char) :
    ∀ p ∈ Split s sep, sep ∉ p := by
  induction s with
  | nil => simp [Split]
  | cons c cs ih =>
    obtain ⟨q, qs, hq⟩ := Split_exists_cons cs sep
    by_cases hc : c = sep
    · subst hc
      rw [Split_cons_sep]
      intro p hp
      rcases List.mem_cons.1 hp with h | h
      · simp [h]
      · exact ih p h
    · rw [Split_cons_ne c cs sep hc q qs hq]
      rw [hq] at ih
      intro p hp
      rcases List.mem_cons.1 hp with h | h
      · subst h
        have := ih q (by simp)
        simp only [List.mem_cons, not_or]
        exact ⟨fun e => hc e.symm, this⟩
      · exact ih p (by simp [h])

theorem Split_eq_nil_singleton (s : List Char) (sep : Char) (h : Split s sep = [[]]) :
    s = [] := by
  cases s with
  | nil => rfl
  | cons c cs =>
    obtain ⟨q, qs, hq⟩ := Split_exists_cons cs sep
    by_cases hc : c = sep
    · subst hc
      rw [Split_cons_sep, hq] at h
      simp at h
    · rw [Split_cons_ne c cs sep hc q qs hq] at h
      simp at h

theorem trimRight_cons_of_ne_nil (c : Char) (cs : List Char) (h : trimRight cs ≠ []) :
    trimRight (c :: cs) = c :: trimRight cs := by
  rw [trimRight]
  split
  · next h0 => exact absurd h0 h
  · next r rs h0 => rw [h0]

theorem trimRight_cons_of_nil (c : Char) (cs : List Char) (h : trimRight cs = []) :
    trimRight (c :: cs) = if isSpace c then [] else [c] := by
  rw [trimRight]
  split
  · rfl
  · next r rs h0 => rw [h] at h0; simp at h0

theorem trimRight_cons_of_not_space (c : Char) (cs : List Char) (h : isSpace c = false) :
    trimRight (c :: cs) = c :: trimRight cs := by
  by_cases h0 : trimRight cs = []
  · rw [trimRight_cons_of_nil c cs h0, h0]; simp [h]
  · exact trimRight_cons_of_ne_nil c cs h0

/-- Left trimming acts on the first piece of a split only. -/
theorem Split_dropWhile (s : List Char) (sep : Char) (hsep : isSpace sep = false)
    (p : List Char) (ps : List (List Char)) (h : Split s sep = p :: ps) :
    Split (s.dropWhile isSpace) sep = p.dropWhile isSpace :: ps := by
  induction s generalizing p ps with
  | nil =>
    simp [Split] at h
    obtain ⟨h1, h2⟩ := h
    subst h1; subst h2
    simp [Split]
  | cons c cs ih =>
    obtain ⟨q, qs, hq⟩ := Split_exists_cons cs sep
    by_cases hc : c = sep
    · subst hc
      rw [Split_cons_sep] at h
      simp only [List.cons.injEq] at h
      obtain ⟨h1, h2⟩ := h
      subst h1
      rw [List.dropWhile_cons_of_neg (by simp [hsep]), Split_cons_sep, h2]
      simp
    · rw [Split_cons_ne c cs sep hc q qs hq] at h
      simp only [List.cons.injEq] at h
      obtain ⟨h1, h2⟩ := h
      subst h1; subst h2
      by_cases hsp : isSpace c = true
      · rw [List.dropWhile_cons_of_pos hsp, List.dropWhile_cons_of_pos hsp]
        exact ih q qs hq
      · rw [List.dropWhile_cons_of_neg hsp, List.dropWhile_cons_of_neg hsp]
        exact Split_cons_ne c cs sep hc q qs hq

/-- Right trimming acts on the last piece of a split only. -/
theorem Split_trimRight (s : List Char) (sep : Char) (hsep : isSpace sep = false)
    (init : List (List Char)) (last : List Char) (h : Split s sep = init ++ [last]) :
    Split (trimRight s) sep = init ++ [trimRight last] := by
  induction s generalizing init last with
  | nil =>
    have h0 : [[]] = init ++ [last] := by simpa [Split] using h
    cases init with
    | nil =>
      simp at h0
      subst h0
      simp [trimRight, Split]
    | cons i0 is =>
      have := congrArg List.length h0
      simp at this
  | cons c cs ih =>
    obtain ⟨cinit, clast, hcs⟩ := Split_exists_last cs sep
    have ihc := ih cinit clast hcs
    by_cases hc : c = sep
    · subst hc
      rw [Split_cons_sep, hcs] at h
      have h1 : ([] :: cinit) ++ [clast] = init ++ [last] := by simpa using h
      obtain ⟨hi, hl⟩ := List.append_inj' h1 rfl
      simp only [List.cons.injEq, and_true] at hl
      subst hi; subst hl
      rw [trimRight_cons_of_not_space c cs hsep, Split_cons_sep, ihc]
      simp
    · cases cinit with
      | nil =>
        simp only [List.nil_append] at hcs ihc
        rw [Split_cons_ne c cs sep hc clast [] hcs] at h
        have h1 : ([] : List (List Char)) ++ [c :: clast] = init ++ [last] := by simpa using h
        obtain ⟨hi, hl⟩ := List.append_inj' h1 rfl
        simp only [List.cons.injEq, and_true] at hl
        subst hi; subst hl
        simp only [List.nil_append]
        by_cases h0 : trimRight cs = []
        · rw [h0] at ihc
          have hcl : trimRight clast = [] := by
            simp [Split] at ihc
            exact ihc
          rw [trimRight_cons_of_nil c cs h0, trimRight_cons_of_nil c clast hcl]
          by_cases hsp : isSpace c = true
          · simp [hsp, Split]
          · simp only [hsp]
            exact Split_cons_ne c [] sep hc [] [] (by simp [Split])
        · have hcl : trimRight clast ≠ [] := by
            intro e
            rw [e] at ihc
            exact h0 (Split_eq_nil_singleton _ sep ihc)
          rw [trimRight_cons_of_ne_nil c cs h0, trimRight_cons_of_ne_nil c clast hcl]
          exact Split_cons_ne c _ sep hc _ [] ihc
      | cons i0 is =>
        simp only [List.cons_append] at hcs ihc
        rw [Split_cons_ne c cs sep hc i0 (is ++ [clast]) hcs] at h
        have h1 : ((c :: i0) :: is) ++ [clast] = init ++ [last] := by simpa using h
        obtain ⟨hi, hl⟩ := List.append_inj' h1 rfl
        simp only [List.cons.injEq, and_true] at hl
        subst hi; subst hl
        have h0 : trimRight cs ≠ [] := by
          intro e
          rw [e] at ihc
          simp [Split] at ihc
        rw [trimRight_cons_of_ne_nil c cs h0]
        simpa using Split_cons_ne c _ sep hc _ _ ihc

/-- Removing a leading `~` acts on the first piece of a split only. -/
theorem Split_TrimPrefixTilde (s : List Char) (sep : Char) (hsep : sep ≠ '~')
    (p : List Char) (ps : List (List Char)) (h : Split s sep = p :: ps) :
    Split (TrimPrefixTilde s) sep = TrimPrefixTilde p :: ps := by
  cases s with
  | nil =>
    simp [Split] at h
    obtain ⟨h1, h2⟩ := h
    subst h1; subst h2
    simp [TrimPrefixTilde, HasPrefixTilde, Split]
  | cons c cs =>
    obtain ⟨q, qs, hq⟩ := Split_exists_cons cs sep
    by_cases hc : c = sep
    · subst hc
      have h' := h
      rw [Split_cons_sep] at h'
      simp only [List.cons.injEq] at h'
      obtain ⟨h1, h2⟩ := h'
      subst h1
      simp [TrimPrefixTilde, HasPrefixTilde, hsep, h]
    · rw [Split_cons_ne c cs sep hc q qs hq] at h
      simp only [List.cons.injEq] at h
      obtain ⟨h1, h2⟩ := h
      subst h1; subst h2
      by_cases ht : c = '~'
      · simp [TrimPrefixTilde, HasPrefixTilde, ht, hq]
      · simp only [TrimPrefixTilde, HasPrefixTilde, ht, decide_False, Bool.false_eq_true,
          if_false]
        exact Split_cons_ne c cs sep hc q qs hq

/-! ## Lemmas on selectors and scopes -/

theorem mem_trimRight (x : Char) (s : List Char) (h : x ∈ trimRight s) : x ∈ s := by
  induction s with
  | nil => simp [trimRight] at h
  | cons c cs ih =>
    by_cases h0 : trimRight cs = []
    · rw [trimRight_cons_of_nil c cs h0] at h
      by_cases hsp : isSpace c = true
      · simp [hsp] at h
      · simp only [hsp] at h
        simp at h
        simp [h]
    · rw [trimRight_cons_of_ne_nil c cs h0] at h
      rcases List.mem_cons.1 h with h1 | h1
      · simp [h1]
      · simp [ih h1]

theorem mem_TrimSpace (x : Char) (s : List Char) (h : x ∈ TrimSpace s) : x ∈ s :=
  (List.dropWhile_suffix isSpace).subset (mem_trimRight x _ h)

theorem mem_TrimPrefixTilde (x : Char) (s : List Char) (h : x ∈ TrimPrefixTilde s) : x ∈ s := by
  unfold TrimPrefixTilde at h
  split at h
  · exact List.mem_of_mem_drop h
  · exact h

theorem NewSelector_loop_succ (i : Nat) (value parts : List (List Char)) (negated : Bool) :
    NewSelector.loop (i + 1) value parts negated =
      { Value := parts ++ value.map TrimSpace, Negated := negated } := by
  induction value generalizing i parts with
  | nil => simp [NewSelector.loop]
  | cons m rest ih =>
    rw [NewSelector.loop]
    simp [ih, List.append_assoc]

theorem NewSelector_nil : NewSelector [] = { Value := [], Negated := false } := by
  simp [NewSelector, NewSelector.loop]

/-- The selector that `NewSelector` builds, in closed form: every element is trimmed and a
leading `~` of the first one is removed and recorded. -/
theorem NewSelector_cons (m : List Char) (rest : List (List Char)) :
    NewSelector (m :: rest) =
      if HasPrefixTilde (TrimSpace m) = true then
        { Value := TrimPrefixTilde (TrimSpace m) :: rest.map TrimSpace, Negated := true }
      else { Value := TrimSpace m :: rest.map TrimSpace, Negated := false } := by
  rw [NewSelector, NewSelector.loop]
  by_cases h : HasPrefixTilde (TrimSpace m) = true
  · simp [h, NewSelector_loop_succ]
  · simp [h, NewSelector_loop_succ]

theorem Sections_eq (s : Selector) :
    s.Sections = (s.Value.map (fun m => Split m '.')).flatten := by
  simp [Selector.Sections, foldl_append_eq]

theorem Sections_of_no_dot (s : Selector) (h : ∀ m ∈ s.Value, '.' ∉ m) :
    s.Sections = s.Value := by
  rw [Sections_eq]
  generalize s.Value = l at h
  induction l with
  | nil => simp
  | cons m rest ih =>
    have hm : Split m '.' = [m] := Split_of_not_mem m '.' (h m (by simp))
    have hr := ih (fun x hx => h x (by simp [hx]))
    simp [hm, hr]

/-- The sections of the candidate selector built from a block scope. -/
theorem candidate_Sections (blk : List Char) :
    (NewSelector [blk]).Sections = Split (TrimPrefixTilde (TrimSpace blk)) '.' := by
  rw [NewSelector_cons, Sections_eq]
  by_cases h : HasPrefixTilde (TrimSpace blk) = true
  · simp [h]
  · simp [h, TrimPrefixTilde]

/-- A selector parsed from the dot-split pieces of a clause has its `Value` as sections. -/
theorem Sections_NewSelector_Split (clause : List Char) :
    (NewSelector (Split clause '.')).Sections = (NewSelector (Split clause '.')).Value := by
  apply Sections_of_no_dot
  obtain ⟨p, ps, hp⟩ := Split_exists_cons clause '.'
  have hall := not_mem_of_mem_Split clause '.'
  rw [hp] at hall
  rw [hp, NewSelector_cons]
  have hp0 : '.' ∉ TrimSpace p := fun e => hall p (by simp) (mem_TrimSpace _ _ e)
  have hrest : ∀ m ∈ ps.map TrimSpace, '.' ∉ m := by
    intro m hm
    obtain ⟨q, hq, rfl⟩ := List.mem_map.1 hm
    exact fun e => hall q (by simp [hq]) (mem_TrimSpace _ _ e)
  by_cases h : HasPrefixTilde (TrimSpace p) = true
  · simp only [h, if_true]
    intro m hm
    rcases List.mem_cons.1 hm with h1 | h1
    · subst h1
      exact fun e => hp0 (mem_TrimPrefixTilde _ _ e)
    · exact hrest m h1
  · simp only [h]
    intro m hm
    rcases List.mem_cons.1 hm with h1 | h1
    · subst h1
      exact hp0
    · exact hrest m h1

theorem mem_mapSet (g : List Char → List Selector) (m : List (List Char × List Selector))
    (hm : ∀ e ∈ m, e.2 = g e.1) (k : List Char) (kv : List Char × List Selector) :
    kv ∈ mapSet m k (g k) ↔ kv = (k, g k) ∨ kv ∈ m := by
  induction m with
  | nil => simp [mapSet]
  | cons e rest ih =>
    obtain ⟨k0, v0⟩ := e
    have hv0 : v0 = g k0 := hm (k0, v0) (by simp)
    have ihr := ih (fun e he => hm e (by simp [he]))
    rw [mapSet]
    by_cases hk : k0 = k
    · subst hk
      subst hv0
      simp
    · simp only [hk, if_false, List.mem_cons, ihr]
      tauto

theorem mem_foldl_mapSet (g : List Char → List Selector) (value : List (List Char))
    (acc : List (List Char × List Selector)) (hacc : ∀ e ∈ acc, e.2 = g e.1)
    (kv : List Char × List Selector) :
    kv ∈ value.foldl (fun scope v => mapSet scope v (g v)) acc ↔
      kv ∈ acc ∨ ∃ v ∈ value, kv = (v, g v) := by
  induction value generalizing acc with
  | nil => simp
  | cons v rest ih =>
    have hacc2 : ∀ e ∈ mapSet acc v (g v), e.2 = g e.1 := by
      intro e he
      rcases (mem_mapSet g acc hacc v e).1 he with h | h
      · subst h; rfl
      · exact hacc e h
    rw [List.foldl_cons, ih _ hacc2, mem_mapSet g acc hacc]
    simp only [List.mem_cons, exists_eq_or_imp]
    tauto

theorem selectors_eq (v : List Char) :
    NewScope.selectors v = (Split v '&').map (fun part => NewSelector (Split part '.')) := by
  unfold NewScope.selectors
  rw [foldl_append_eq (fun part => [NewSelector (Split part '.')])]
  induction Split v '&' with
  | nil => simp
  | cons a l ih => simpa using ih

theorem mem_NewScope_Selectors (value : List (List Char))
    (kv : List Char × List Selector) :
    kv ∈ (NewScope value).Selectors ↔ ∃ v ∈ value, kv = (v, NewScope.selectors v) := by
  unfold NewScope
  simp only
  rw [mem_foldl_mapSet NewScope.selectors value [] (by simp)]
  simp

/-- On a candidate that is not sized a scope built by `NewScope` matches exactly when every
`&`-separated clause of every scope string passes the test of the inner loop. -/
theorem Matches_NewScope_of_not_sized (value : List (List Char)) (blk : List Char)
    (h : (NewSelector [blk]).isSized = false) :
    (NewScope value).Matches blk = true ↔
      ∀ v ∈ value, ∀ clause ∈ Split v '&',
        Scope.partOk (NewSelector [blk]) (NewSelector (Split clause '.')) = true := by
  unfold Scope.Matches
  simp only [h, Bool.false_eq_true, if_false, List.all_eq_true]
  constructor
  · intro hall v hv clause hc
    have := hall (v, NewScope.selectors v) ((mem_NewScope_Selectors value _).2 ⟨v, hv, rfl⟩)
    simp only [selectors_eq] at this
    exact this _ (List.mem_map.2 ⟨clause, hc, rfl⟩)
  · intro hall kv hkv part hp
    obtain ⟨v, hv, rfl⟩ := (mem_NewScope_Selectors value kv).1 hkv
    simp only [selectors_eq] at hp
    obtain ⟨clause, hc, rfl⟩ := List.mem_map.1 hp
    exact hall v hv clause hc

theorem NewSelector_Split_eq (clause : List Char) :
    NewSelector (Split clause '.') =
      { Value := clauseSegments clause, Negated := clauseNegated clause } := by
  obtain ⟨p, ps, hp⟩ := Split_exists_cons clause '.'
  rw [hp, NewSelector_cons]
  by_cases h : HasPrefixTilde (TrimSpace p) = true
  · simp [h, clauseSegments, clauseNegated, clauseTrimmed, hp]
  · simp [h, clauseSegments, clauseNegated, clauseTrimmed, hp, TrimPrefixTilde]

theorem Sections_clause (clause : List Char) :
    (NewSelector (Split clause '.')).Sections = clauseSegments clause := by
  rw [Sections_NewSelector_Split, NewSelector_Split_eq]

/-- The test of the inner loop of `Matches` on a parsed clause is the reading of the clause
as a containment, inverted when the clause is negated. -/
theorem partOk_iff (candidate : Selector) (clause : List Char) :
    Scope.partOk candidate (NewSelector (Split clause '.')) = true ↔
      clausePassesIn clause candidate.Sections := by
  have hsec := Sections_clause clause
  have hneg : (NewSelector (Split clause '.')).Negated = clauseNegated clause := by
    rw [NewSelector_Split_eq]
  have hc : candidate.Contains (NewSelector (Split clause '.')) = true ↔
      ∀ seg ∈ clauseSegments clause, seg ∈ candidate.Sections := by
    unfold Selector.Contains
    rw [AllStringsInSlice_iff, hsec]
  unfold Scope.partOk clausePassesIn
  simp only [hneg]
  cases hn : clauseNegated clause <;>
    cases hm : candidate.Contains (NewSelector (Split clause '.')) <;>
    rw [hm] at hc <;> simp at hc ⊢ <;> exact hc

/-- A path without surrounding white space and without a leading `~` is its own candidate:
its sections are its dot-split segments. -/
theorem candidate_Sections_of_plain (path : List Char) (h1 : TrimSpace path = path)
    (h2 : HasPrefixTilde path = false) :
    (NewSelector [path]).Sections = Split path '.' := by
  rw [candidate_Sections, h1]
  simp [TrimPrefixTilde, h2]

/-- A segment that trimming leaves alone stays a segment of the candidate. -/
theorem mem_candidateSegments_of_mem_Split (path x : List Char) (hx : x ∈ Split path '.')
    (h1 : x.dropWhile isSpace = x) (h2 : trimRight x = x) (h3 : TrimPrefixTilde x = x) :
    x ∈ candidateSegments path := by
  unfold candidateSegments TrimSpace
  obtain ⟨q, qs, hq⟩ := Split_exists_cons path '.'
  have hd := Split_dropWhile path '.' (by decide) q qs hq
  have m1 : x ∈ Split (path.dropWhile isSpace) '.' := by
    rw [hd]
    rw [hq] at hx
    rcases List.mem_cons.1 hx with h | h
    · subst h; simp [h1]
    · simp [h]
  obtain ⟨init, last, hl⟩ := Split_exists_last (path.dropWhile isSpace) '.'
  have ht := Split_trimRight _ '.' (by decide) init last hl
  have m2 : x ∈ Split (trimRight (path.dropWhile isSpace)) '.' := by
    rw [ht]
    rw [hl] at m1
    rcases List.mem_append.1 m1 with h | h
    · simp [h]
    · simp at h
      subst h
      simp [h2]
  obtain ⟨r, rs, hr⟩ := Split_exists_cons (trimRight (path.dropWhile isSpace)) '.'
  rw [Split_TrimPrefixTilde _ '.' (by decide) r rs hr]
  rw [hr] at m2
  rcases List.mem_cons.1 m2 with h | h
  · subst h; simp [h3]
  · simp [h]

/-- Trimming a path and removing its leading `~` keeps the number of its segments. -/
theorem length_candidateSegments (path : List Char) :
    (candidateSegments path).length = (Split path '.').length := by
  unfold candidateSegments TrimSpace
  obtain ⟨q, qs, hq⟩ := Split_exists_cons path '.'
  have hd := Split_dropWhile path '.' (by decide) q qs hq
  obtain ⟨init, last, hl⟩ := Split_exists_last (path.dropWhile isSpace) '.'
  have ht := Split_trimRight _ '.' (by decide) init last hl
  obtain ⟨r, rs, hr⟩ := Split_exists_cons (trimRight (path.dropWhile isSpace)) '.'
  rw [Split_TrimPrefixTilde _ '.' (by decide) r rs hr]
  have e1 : (Split path '.').length = (Split (path.dropWhile isSpace) '.').length := by
    rw [hq, hd]; simp
  have e2 : (Split (path.dropWhile isSpace) '.').length =
      (Split (trimRight (path.dropWhile isSpace)) '.').length := by
    rw [hl, ht]; simp
  rw [e1, e2, hr]
  simp

theorem candidate_Sections_eq (path : List Char) :
    (NewSelector [path]).Sections = candidateSegments path :=
  candidate_Sections path

theorem Split_single_clause (s : List Char) (h : '&' ∉ s) : Split s '&' = [s] :=
  Split_of_not_mem s '&' h

/-- A scope of one clause on a candidate that is not sized: the test of that clause. -/
theorem Matches_single_clause (s path : List Char) (hamp : '&' ∉ s)
    (hsized : (NewSelector [path]).isSized = false) :
    (NewScope [s]).Matches path = true ↔ clausePassesIn s (candidateSegments path) := by
  rw [Matches_NewScope_of_not_sized [s] path hsized]
  simp only [List.mem_singleton, forall_eq, Split_single_clause s hamp]
  rw [partOk_iff, candidate_Sections_eq]

theorem head_Split (s : List Char) (sep : Char) (p : List Char) (ps : List (List Char))
    (h : Split s sep = p :: ps) : ∀ c ∈ p.head?, c ∈ s.head? := by
  cases s with
  | nil =>
    simp [Split] at h
    simp [← h.1]
  | cons d ds =>
    obtain ⟨q, qs, hq⟩ := Split_exists_cons ds sep
    by_cases hd : d = sep
    · subst hd
      rw [Split_cons_sep] at h
      simp only [List.cons.injEq] at h
      simp [← h.1]
    · rw [Split_cons_ne d ds sep hd q qs hq] at h
      simp only [List.cons.injEq] at h
      simp [← h.1]

theorem head_trimRight (s : List Char) : ∀ c ∈ (trimRight s).head?, c ∈ s.head? := by
  cases s with
  | nil => simp [trimRight]
  | cons d ds =>
    by_cases h0 : trimRight ds = []
    · rw [trimRight_cons_of_nil d ds h0]
      by_cases hsp : isSpace d = true <;> simp [hsp]
    · rw [trimRight_cons_of_ne_nil d ds h0]
      simp

theorem dropWhile_of_head (s : List Char) (h : ∀ c ∈ s.head?, isSpace c = false) :
    s.dropWhile isSpace = s := by
  cases s with
  | nil => rfl
  | cons d ds =>
    have := h d (by simp)
    simp [List.dropWhile_cons, this]

theorem HasPrefixTilde_of_head (s : List Char) (h : ∀ c ∈ s.head?, c ≠ '~') :
    HasPrefixTilde s = false := by
  cases s with
  | nil => rfl
  | cons d ds =>
    have := h d (by simp)
    simp [HasPrefixTilde, this]

/-- The parse of a clause that begins neither with white space nor with `~`, and of the
same clause behind a `~`: the same segments, the second negated. -/
theorem clause_tilde (s : List Char) (hs : ∀ c ∈ s.head?, isSpace c = false ∧ c ≠ '~') :
    clauseNegated s = false ∧ clauseNegated ('~' :: s) = true ∧
      clauseSegments ('~' :: s) = clauseSegments s := by
  obtain ⟨p, ps, hp⟩ := Split_exists_cons s '.'
  have hp2 : Split ('~' :: s) '.' = ('~' :: p) :: ps :=
    Split_cons_ne '~' s '.' (by decide) p ps hp
  have hhead : ∀ c ∈ p.head?, isSpace c = false ∧ c ≠ '~' :=
    fun c hc => hs c (head_Split s '.' p ps hp c hc)
  have hdrop : p.dropWhile isSpace = p := dropWhile_of_head p (fun c hc => (hhead c hc).1)
  have htrim : TrimSpace p = trimRight p := by rw [TrimSpace, hdrop]
  have hnot : HasPrefixTilde (trimRight p) = false :=
    HasPrefixTilde_of_head _ (fun c hc => (hhead c (head_trimRight p c hc)).2)
  have htrim2 : TrimSpace ('~' :: p) = '~' :: trimRight p := by
    rw [TrimSpace, List.dropWhile_cons_of_neg (by decide),
      trimRight_cons_of_not_space '~' p (by decide)]
  have hyes : HasPrefixTilde ('~' :: trimRight p) = true := by simp [HasPrefixTilde]
  refine ⟨?_, ?_, ?_⟩
  · simp [clauseNegated, clauseTrimmed, hp, htrim, hnot]
  · simp [clauseNegated, clauseTrimmed, hp2, htrim2, hyes]
  · simp [clauseSegments, clauseTrimmed, hp, hp2, htrim, htrim2, TrimPrefixTilde, hnot, hyes]

theorem Split_append_sep (a b : List Char) (sep : Char) (h : sep ∉ a) :
    Split (a ++ sep :: b) sep = a :: Split b sep := by
  induction a with
  | nil => simp [Split_cons_sep]
  | cons c cs ih =>
    have hc : c ≠ sep := fun e => h (by simp [e])
    have hcs : sep ∉ cs := fun e => h (by simp [e])
    exact Split_cons_ne c _ sep hc cs _ (ih hcs)

theorem Split_append_singleton (s : List Char) (sep c : Char) (hc : c ≠ sep)
    (init : List (List Char)) (last : List Char) (h : Split s sep = init ++ [last]) :
    Split (s ++ [c]) sep = init ++ [last ++ [c]] := by
  induction s generalizing init last with
  | nil =>
    have h0 : ([] : List (List Char)) ++ [[]] = init ++ [last] := by simpa [Split] using h
    obtain ⟨hi, hl⟩ := List.append_inj' h0 rfl
    simp only [List.cons.injEq, and_true] at hl
    subst hi; subst hl
    simpa using Split_cons_ne c [] sep hc [] [] (by simp [Split])
  | cons d ds ih =>
    obtain ⟨dinit, dlast, hds⟩ := Split_exists_last ds sep
    have ihd := ih dinit dlast hds
    by_cases hd : d = sep
    · subst hd
      rw [Split_cons_sep, hds] at h
      have h1 : ([] :: dinit) ++ [dlast] = init ++ [last] := by simpa using h
      obtain ⟨hi, hl⟩ := List.append_inj' h1 rfl
      simp only [List.cons.injEq, and_true] at hl
      subst hi; subst hl
      rw [List.cons_append, Split_cons_sep, ihd]
      simp
    · cases dinit with
      | nil =>
        simp only [List.nil_append] at hds ihd
        rw [Split_cons_ne d ds sep hd dlast [] hds] at h
        have h1 : ([] : List (List Char)) ++ [d :: dlast] = init ++ [last] := by simpa using h
        obtain ⟨hi, hl⟩ := List.append_inj' h1 rfl
        simp only [List.cons.injEq, and_true] at hl
        subst hi; subst hl
        simpa using Split_cons_ne d _ sep hd _ [] ihd
      | cons i0 is =>
        simp only [List.cons_append] at hds ihd
        rw [Split_cons_ne d ds sep hd i0 (is ++ [dlast]) hds] at h
        have h1 : ((d :: i0) :: is) ++ [dlast] = init ++ [last] := by simpa using h
        obtain ⟨hi, hl⟩ := List.append_inj' h1 rfl
        simp only [List.cons.injEq, and_true] at hl
        subst hi; subst hl
        simpa using Split_cons_ne d _ sep hd _ _ ihd

theorem trimRight_append_space (y : List Char) (c : Char) (hc : isSpace c = true) :
    trimRight (y ++ [c]) = trimRight y := by
  induction y with
  | nil => simp [trimRight, hc]
  | cons d ds ih =>
    by_cases h0 : trimRight ds = []
    · rw [List.cons_append, trimRight_cons_of_nil d _ (by rw [ih, h0]),
        trimRight_cons_of_nil d ds h0]
    · rw [List.cons_append, trimRight_cons_of_ne_nil d _ (by rw [ih]; exact h0),
        trimRight_cons_of_ne_nil d ds h0, ih]

theorem TrimSpace_append_space (y : List Char) (c : Char) (hc : isSpace c = true) :
    TrimSpace (y ++ [c]) = TrimSpace y := by
  unfold TrimSpace
  rw [List.dropWhile_append]
  by_cases h : (y.dropWhile isSpace).isEmpty = true
  · have h2 : y.dropWhile isSpace = [] := by simpa using h
    simp [h2, hc, trimRight]
  · simp only [h]
    exact trimRight_append_space _ c hc

theorem TrimSpace_cons_space (y : List Char) (c : Char) (hc : isSpace c = true) :
    TrimSpace (c :: y) = TrimSpace y := by
  unfold TrimSpace
  rw [List.dropWhile_cons_of_pos hc]

/-- The selector that `NewSelector` builds depends on the trimmed elements only. -/
theorem NewSelector_congr (v w : List (List Char)) (h : v.map TrimSpace = w.map TrimSpace) :
    NewSelector v = NewSelector w := by
  cases v with
  | nil =>
    cases w with
    | nil => rfl
    | cons b bs => simp at h
  | cons a as =>
    cases w with
    | nil => simp at h
    | cons b bs =>
      simp only [List.map_cons, List.cons.injEq] at h
      rw [NewSelector_cons, NewSelector_cons, h.1, h.2]

/-- A space after a clause, as left by ` & `, does not change its selector. -/
theorem NewSelector_Split_append_space (a : List Char) :
    NewSelector (Split (a ++ [' ']) '.') = NewSelector (Split a '.') := by
  apply NewSelector_congr
  obtain ⟨init, last, hl⟩ := Split_exists_last a '.'
  rw [Split_append_singleton a '.' ' ' (by decide) init last hl, hl]
  simp [TrimSpace_append_space last ' ' (by decide)]

/-- A space before a clause, as left by ` & `, does not change its selector. -/
theorem NewSelector_Split_cons_space (b : List Char) :
    NewSelector (Split (' ' :: b) '.') = NewSelector (Split b '.') := by
  apply NewSelector_congr
  obtain ⟨p, ps, hp⟩ := Split_exists_cons b '.'
  rw [Split_cons_ne ' ' b '.' (by decide) p ps hp, hp]
  simp [TrimSpace_cons_space p ' ' (by decide)]

/-! ## The selector algebra -/

/-- C1: for every list of scope strings and every candidate path that is not sized and has
no leading `~` or surrounding white space, `NewScope(value).Matches(path)` is true exactly
when every `&`-separated clause of every string of `value` passes, a clause without a
leading `~` passing iff each of its trimmed dot-separated segments is among the dot-split
segments of the path and a clause with a leading `~` iff at least one of its segments is
absent from them; `NewScope` of the empty list matches every such path. -/
theorem NewScope_Matches_iff_clauses (value : List (List Char)) (path : List Char)
    (hws : TrimSpace path = path) (htilde : HasPrefixTilde path = false)
    (hsized : (NewSelector [path]).isSized = false) :
    ((NewScope value).Matches path = true ↔
      ∀ v ∈ value, ∀ clause ∈ Split v '&', clausePasses clause path) ∧
    (NewScope []).Matches path = true := by
  have hsec := candidate_Sections_of_plain path hws htilde
  have key : ∀ value : List (List Char), ((NewScope value).Matches path = true ↔
      ∀ v ∈ value, ∀ clause ∈ Split v '&', clausePasses clause path) := by
    intro value
    rw [Matches_NewScope_of_not_sized value path hsized]
    constructor
    · intro h v hv clause hc
      have := (partOk_iff _ clause).1 (h v hv clause hc)
      rw [hsec] at this
      exact this
    · intro h v hv clause hc
      apply (partOk_iff _ clause).2
      rw [hsec]
      exact h v hv clause hc
  refine ⟨key value, (key []).2 ?_⟩
  intro v hv
  simp at hv

/-- The scope `~blockquote & ~code` on the path `text.list.strong.md`: a plain path that is
not sized, where the clause reading applies. -/
theorem NewScope_Matches_iff_clauses_witness :
    TrimSpace "text.list.strong.md".toList = "text.list.strong.md".toList ∧
    HasPrefixTilde "text.list.strong.md".toList = false ∧
    (NewSelector ["text.list.strong.md".toList]).isSized = false ∧
    (((NewScope ["~blockquote & ~code".toList]).Matches "text.list.strong.md".toList = true ↔
      ∀ v ∈ ["~blockquote & ~code".toList], ∀ clause ∈ Split v '&',
        clausePasses clause "text.list.strong.md".toList) ∧
    (NewScope []).Matches "text.list.strong.md".toList = true) :=
  ⟨by decide, by decide, by decide,
    NewScope_Matches_iff_clauses ["~blockquote & ~code".toList] "text.list.strong.md".toList
      (by decide) (by decide) (by decide)⟩

theorem clauseSegments_of_not_negated (s : List Char) (h : clauseNegated s = false) :
    clauseSegments s = clauseTrimmed s := by
  unfold clauseSegments
  unfold clauseNegated at h
  split
  · next s0 rest heq =>
    rw [heq] at h
    simp only at h
    simp [TrimPrefixTilde, h, heq]
  · next heq => exact heq.symm

/-- C2, as stated, fails: on the sized candidate `text.md` the scope `md` does not match
although its segment is present; the scope ` a` matches `a.b.c` although its untrimmed
segment is absent; the scope `a` matches `~a.b.c`, whose first dot-split segment is `~a`. -/
theorem single_selector_containment_counterexample :
    ('&' ∉ "md".toList ∧ clauseNegated "md".toList = false ∧
      ¬ ((NewScope ["md".toList]).Matches "text.md".toList = true ↔
        ∀ seg ∈ Split "md".toList '.', seg ∈ Split "text.md".toList '.')) ∧
    ¬ ((NewScope [" a".toList]).Matches "a.b.c".toList = true ↔
        ∀ seg ∈ Split " a".toList '.', seg ∈ Split "a.b.c".toList '.') ∧
    ¬ ((NewScope ["a".toList]).Matches "~a.b.c".toList = true ↔
        ∀ seg ∈ Split "a".toList '.', seg ∈ Split "~a.b.c".toList '.') := by
  decide

/-- C2, amended: for every single clause `s` without `&` and without a leading `~`, and
every candidate path that is not sized, `NewScope([s]).Matches(path)` is true if and only
if every trimmed dot-separated segment of `s` is among the segments of the candidate, the
dot-split segments of the path without its surrounding white space and leading `~`. -/
theorem single_selector_Matches_iff_containment (s path : List Char) (hamp : '&' ∉ s)
    (hneg : clauseNegated s = false) (hsized : (NewSelector [path]).isSized = false) :
    (NewScope [s]).Matches path = true ↔
      ∀ seg ∈ clauseTrimmed s, seg ∈ candidateSegments path := by
  rw [Matches_single_clause s path hamp hsized]
  unfold clausePassesIn
  rw [clauseSegments_of_not_negated s hneg]
  simp [hneg]

/-- The selector `text.list` on the candidate `text.list.md`. -/
theorem single_selector_Matches_iff_containment_witness :
    '&' ∉ "text.list".toList ∧ clauseNegated "text.list".toList = false ∧
    (NewSelector ["text.list.md".toList]).isSized = false ∧
    ((NewScope ["text.list".toList]).Matches "text.list.md".toList = true ↔
      ∀ seg ∈ clauseTrimmed "text.list".toList, seg ∈ candidateSegments "text.list.md".toList) :=
  ⟨by decide, by decide, by decide,
    single_selector_Matches_iff_containment "text.list".toList "text.list.md".toList
      (by decide) (by decide) (by decide)⟩

/-- A path of exactly two dot-separated segments, one of them `raw`, `summary` or `text`,
is a sized candidate. -/
theorem isSized_of_two_segments (path : List Char) (hlen : (Split path '.').length = 2)
    (hkey : "raw".toList ∈ Split path '.' ∨ "summary".toList ∈ Split path '.' ∨
      "text".toList ∈ Split path '.') :
    (NewSelector [path]).isSized = true := by
  unfold Selector.isSized Selector.Has
  simp only [candidate_Sections_eq, length_candidateSegments, hlen, decide_True,
    Bool.and_true, Bool.or_eq_true, StringInSlice_iff]
  rcases hkey with h | h | h
  · exact Or.inl (Or.inl (mem_candidateSegments_of_mem_Split path _ h (by decide) (by decide)
      (by decide)))
  · exact Or.inl (Or.inr (mem_candidateSegments_of_mem_Split path _ h (by decide) (by decide)
      (by decide)))
  · exact Or.inr (mem_candidateSegments_of_mem_Split path _ h (by decide) (by decide)
      (by decide))

/-- C6: for every scope expression and every candidate path of exactly two dot-separated
segments, one of which is `raw`, `summary` or `text`, `Matches` returns the `Sized` flag of
the expression whatever its selectors are, so an expression that is not sized does not
match such a path. -/
theorem Matches_sized_candidate (expr : Scope) (path : List Char)
    (hlen : (Split path '.').length = 2)
    (hkey : "raw".toList ∈ Split path '.' ∨ "summary".toList ∈ Split path '.' ∨
      "text".toList ∈ Split path '.') :
    expr.Matches path = expr.Sized ∧ (expr.Sized = false → expr.Matches path = false) := by
  have h : expr.Matches path = expr.Sized := by
    unfold Scope.Matches
    simp [isSized_of_two_segments path hlen hkey]
  exact ⟨h, fun hs => by rw [h, hs]⟩

/-- The negated expression `~strong` on the sized candidate `summary.md`. -/
theorem Matches_sized_candidate_witness :
    (Split "summary.md".toList '.').length = 2 ∧
    ("raw".toList ∈ Split "summary.md".toList '.' ∨
      "summary".toList ∈ Split "summary.md".toList '.' ∨
      "text".toList ∈ Split "summary.md".toList '.') ∧
    ((NewScope ["~strong".toList]).Matches "summary.md".toList =
        (NewScope ["~strong".toList]).Sized ∧
      ((NewScope ["~strong".toList]).Sized = false →
        (NewScope ["~strong".toList]).Matches "summary.md".toList = false)) :=
  ⟨by decide, by decide,
    Matches_sized_candidate (NewScope ["~strong".toList]) "summary.md".toList
      (by decide) (by decide)⟩

/-- C5, as stated, fails: the bare candidate `summary` has one segment, is not sized, and
the expression `raw` does not match it. -/
theorem sized_permissiveness_counterexample :
    ¬ ((NewScope ["raw".toList]).Matches "raw".toList = true ∧
      (NewScope ["raw".toList]).Matches "summary".toList = true ∧
      (NewScope ["raw".toList]).Matches "text.blockquote.md".toList = false) := by
  decide

/-- C5, amended: the single-selector expression `raw` matches the sized candidates
`raw.md` and `summary.md` equally, matches the bare path `raw` by containment, and does
not match the multi-segment path `text.blockquote.md`. -/
theorem sized_permissiveness :
    (NewScope ["raw".toList]).Sized = true ∧
    (NewScope ["raw".toList]).Matches "raw.md".toList = true ∧
    (NewScope ["raw".toList]).Matches "summary.md".toList = true ∧
    (NewScope ["raw".toList]).Matches "raw".toList = true ∧
    (NewScope ["raw".toList]).Matches "text.blockquote.md".toList = false := by
  decide

theorem partOk_negated (candidate : Selector) (v : List (List Char)) :
    Scope.partOk candidate { Value := v, Negated := true } =
      !Scope.partOk candidate { Value := v, Negated := false } := by
  simp [Scope.partOk, Selector.Contains, Selector.Sections]

/-- A scope of one clause on a candidate that is not sized, as a Boolean. -/
theorem Matches_single_partOk (s path : List Char) (hamp : '&' ∉ s)
    (hsized : (NewSelector [path]).isSized = false) :
    (NewScope [s]).Matches path =
      Scope.partOk (NewSelector [path]) (NewSelector (Split s '.')) := by
  rw [Bool.eq_iff_iff, Matches_NewScope_of_not_sized [s] path hsized]
  simp [Split_single_clause s hamp]

/-- C3, as stated, fails in its general part: a selector that already begins with `~`
keeps one `~` in its first segment when negated again, and both `~~a` and `~a` match
`b.c.d`; behind a `~` the leading space of ` a` is no longer trimmed, and both `~ a` and
` a` match `a.b.c`. -/
theorem negation_inverts_counterexample :
    ('&' ∉ "~a".toList ∧ (NewSelector ["b.c.d".toList]).isSized = false ∧
      ¬ ((NewScope ["~".toList ++ "~a".toList]).Matches "b.c.d".toList = true ↔
        ¬ (NewScope ["~a".toList]).Matches "b.c.d".toList = true)) ∧
    ('&' ∉ " a".toList ∧ (NewSelector ["a.b.c".toList]).isSized = false ∧
      ¬ ((NewScope ["~".toList ++ " a".toList]).Matches "a.b.c".toList = true ↔
        ¬ (NewScope [" a".toList]).Matches "a.b.c".toList = true)) := by
  decide

/-- C3, amended: `~strong` matches `text.list.md` and `text.blockquote.md` and matches no
candidate path whose dot-split segments include `strong`; for every single selector `s`
that begins neither with `~` nor with white space and every path that is not sized, the
scope `~` followed by `s` matches the path if and only if the scope `s` does not. -/
theorem negation_inverts_containment :
    (NewScope ["~strong".toList]).Matches "text.list.md".toList = true ∧
    (NewScope ["~strong".toList]).Matches "text.blockquote.md".toList = true ∧
    (∀ p : List Char, "strong".toList ∈ Split p '.' →
      (NewScope ["~strong".toList]).Matches p = false) ∧
    (∀ s p : List Char, '&' ∉ s → (∀ c ∈ s.head?, isSpace c = false ∧ c ≠ '~') →
      (NewSelector [p]).isSized = false →
      ((NewScope ["~".toList ++ s]).Matches p = true ↔ ¬ (NewScope [s]).Matches p = true)) := by
  refine ⟨by decide, by decide, ?_, ?_⟩
  · intro p hp
    by_cases hsized : (NewSelector [p]).isSized = true
    · unfold Scope.Matches
      simp only [hsized, if_true]
      decide
    · simp only [Bool.not_eq_true] at hsized
      have hmem := mem_candidateSegments_of_mem_Split p _ hp (by decide) (by decide)
        (by decide)
      have hiff := Matches_single_clause "~strong".toList p (by decide) hsized
      have hn : clauseNegated "~strong".toList = true := by decide
      have hseg : clauseSegments "~strong".toList = ["strong".toList] := by decide
      unfold clausePassesIn at hiff
      rw [hn, hseg] at hiff
      simp only [if_true, List.mem_singleton, exists_eq_left] at hiff
      cases hm : (NewScope ["~strong".toList]).Matches p
      · rfl
      · exact absurd hmem (hiff.1 hm)
  · intro s p hamp hhead hsized
    have htl : "~".toList ++ s = '~' :: s := rfl
    rw [htl]
    have hamp2 : '&' ∉ '~' :: s := by
      simp only [List.mem_cons, not_or]
      exact ⟨by decide, hamp⟩
    obtain ⟨h1, h2, h3⟩ := clause_tilde s hhead
    rw [Matches_single_partOk _ p hamp2 hsized, Matches_single_partOk s p hamp hsized,
      NewSelector_Split_eq, NewSelector_Split_eq, h1, h2, h3, partOk_negated]
    simp

/-- The path `a.strong.b` for the second part and the selector `list` on the path
`text.list.md` for the general part. -/
theorem negation_inverts_containment_witness :
    ("strong".toList ∈ Split "a.strong.b".toList '.' ∧
      (NewScope ["~strong".toList]).Matches "a.strong.b".toList = false) ∧
    ('&' ∉ "list".toList ∧ (∀ c ∈ "list".toList.head?, isSpace c = false ∧ c ≠ '~') ∧
      (NewSelector ["text.list.md".toList]).isSized = false ∧
      ((NewScope ["~".toList ++ "list".toList]).Matches "text.list.md".toList = true ↔
        ¬ (NewScope ["list".toList]).Matches "text.list.md".toList = true)) :=
  ⟨⟨by decide, negation_inverts_containment.2.2.1 "a.strong.b".toList (by decide)⟩,
    by decide, by decide, by decide,
    negation_inverts_containment.2.2.2 "list".toList "text.list.md".toList
      (by decide) (by decide) (by decide)⟩

/-- C4: for all clause strings `a` and `b` without `&` and every candidate path that is not
sized, the scope `a & b` matches the path exactly when the scope `a` and the scope `b`
both do; `~blockquote & ~code` matches `text.list.strong.md` and matches neither
`text.blockquote.code.md` nor `text.blockquote.md`. -/
theorem conjunction_Matches :
    (∀ a b p : List Char, '&' ∉ a → '&' ∉ b → (NewSelector [p]).isSized = false →
      (NewScope [a ++ " & ".toList ++ b]).Matches p =
        ((NewScope [a]).Matches p && (NewScope [b]).Matches p)) ∧
    (NewScope ["~blockquote & ~code".toList]).Matches "text.list.strong.md".toList = true ∧
    (NewScope ["~blockquote & ~code".toList]).Matches "text.blockquote.code.md".toList
      = false ∧
    (NewScope ["~blockquote & ~code".toList]).Matches "text.blockquote.md".toList = false := by
  refine ⟨?_, by decide, by decide, by decide⟩
  intro a b p ha hb hsized
  have hstr : a ++ " & ".toList ++ b = (a ++ [' ']) ++ '&' :: (' ' :: b) := by
    have : " & ".toList = [' ', '&', ' '] := rfl
    rw [this]; simp
  have ha2 : '&' ∉ a ++ [' '] := by
    simp only [List.mem_append, List.mem_singleton, not_or]
    exact ⟨ha, by decide⟩
  have hb2 : '&' ∉ ' ' :: b := by
    simp only [List.mem_cons, not_or]
    exact ⟨by decide, hb⟩
  have hsplit : Split (a ++ " & ".toList ++ b) '&' = [a ++ [' '], ' ' :: b] := by
    rw [hstr, Split_append_sep _ _ '&' ha2, Split_of_not_mem _ '&' hb2]
  rw [Matches_single_partOk a p ha hsized, Matches_single_partOk b p hb hsized,
    Bool.eq_iff_iff, Matches_NewScope_of_not_sized _ p hsized]
  simp only [List.mem_singleton, forall_eq, hsplit, List.mem_cons, List.mem_nil_iff,
    or_false, forall_eq_or_imp, NewSelector_Split_append_space, NewSelector_Split_cons_space,
    Bool.and_eq_true]

/-- The clauses `~blockquote` and `~code` on the path `text.blockquote.code.x.md`. -/
theorem conjunction_Matches_witness :
    '&' ∉ "~blockquote".toList ∧ '&' ∉ "~code".toList ∧
    (NewSelector ["text.blockquote.code.x.md".toList]).isSized = false ∧
    (NewScope ["~blockquote".toList ++ " & ".toList ++ "~code".toList]).Matches
        "text.blockquote.code.x.md".toList =
      ((NewScope ["~blockquote".toList]).Matches "text.blockquote.code.x.md".toList &&
        (NewScope ["~code".toList]).Matches "text.blockquote.code.x.md".toList) :=
  ⟨by decide, by decide, by decide,
    conjunction_Matches.1 "~blockquote".toList "~code".toList
      "text.blockquote.code.x.md".toList (by decide) (by decide) (by decide)⟩

/-- C7, as stated, fails: the lists ` raw`, `~raw` and `raw, raw` each give an expression
of exactly one selector whose sole segment is `raw`, and `Sized` is false for all three. -/
theorem Sized_iff_single_selector_counterexample :
    ¬ ((NewScope [" raw".toList]).Sized = true ↔
        singleSizedSelector (NewScope [" raw".toList]) = true) ∧
    ¬ ((NewScope ["~raw".toList]).Sized = true ↔
        singleSizedSelector (NewScope ["~raw".toList]) = true) ∧
    ¬ ((NewScope ["raw".toList, "raw".toList]).Sized = true ↔
        singleSizedSelector (NewScope ["raw".toList, "raw".toList]) = true) := by
  decide

/-- C7, amended: for every list of scope strings, `NewScope(list).Sized` is true if and
only if the list has exactly one string and that string is exactly `raw`, `summary` or
`text`; the expression then has exactly one selector, whose sole segment is that word. -/
theorem Sized_iff_exact_keyword (value : List (List Char)) :
    ((NewScope value).Sized = true ↔
      (value = ["raw".toList] ∨ value = ["summary".toList] ∨ value = ["text".toList])) ∧
    ((NewScope value).Sized = true → singleSizedSelector (NewScope value) = true) := by
  have h1 : (NewScope value).Sized = true ↔
      (value = ["raw".toList] ∨ value = ["summary".toList] ∨ value = ["text".toList]) := by
    unfold NewScope
    simp only
    match value with
    | [] => simp
    | [v0] => simp [or_assoc]
    | _ :: _ :: _ => simp
  refine ⟨h1, fun h => ?_⟩
  rcases h1.1 h with e | e | e <;> subst e <;> decide

/-- The list with the single string `summary`. -/
theorem Sized_iff_exact_keyword_witness :
    (NewScope ["summary".toList]).Sized = true ∧
    singleSizedSelector (NewScope ["summary".toList]) = true :=
  ⟨by decide, (Sized_iff_exact_keyword ["summary".toList]).2 (by decide)⟩

/-- C8, as stated, fails: an expression whose only selector has an empty segment list and
is not negated matches `text.list.md`, since an empty list of sections is contained in
every candidate; and on the sized candidate `raw.md` a sized expression with a negated
empty selector matches as well. -/
theorem empty_selector_counterexample :
    ((∃ sel ∈ selectorsOf emptySelectorScope, sel.Sections = []) ∧
      emptySelectorScope.Matches "text.list.md".toList = true) ∧
    ((∃ sel ∈ selectorsOf emptyNegatedSizedScope, sel.Sections = []) ∧
      emptyNegatedSizedScope.Matches "raw.md".toList = true) := by
  decide

theorem mem_selectorsOf (e : Scope) (sel : Selector) :
    sel ∈ selectorsOf e ↔ ∃ kv ∈ e.Selectors, sel ∈ kv.2 := by
  unfold selectorsOf
  rw [List.mem_flatten]
  constructor
  · rintro ⟨l, hl, hs⟩
    obtain ⟨kv, hkv, rfl⟩ := List.mem_map.1 hl
    exact ⟨kv, hkv, hs⟩
  · rintro ⟨kv, hkv, hs⟩
    exact ⟨kv.2, List.mem_map.2 ⟨kv, hkv, rfl⟩, hs⟩

/-- C8, amended: `Matches` is a total function that indexes nothing. For an expression that
contains a selector with an empty segment list: on a sized candidate the result is the
`Sized` flag; on a candidate that is not sized the result is false when that selector is
negated; when it is not negated the selector passes the test of the loop, so that the result
is decided by the other selectors. -/
theorem empty_selector_Matches (e : Scope) (path : List Char) (sel : Selector)
    (hsel : sel ∈ selectorsOf e) (hempty : sel.Sections = []) :
    ((NewSelector [path]).isSized = true → e.Matches path = e.Sized) ∧
    ((NewSelector [path]).isSized = false → sel.Negated = true → e.Matches path = false) ∧
    (sel.Negated = false → Scope.partOk (NewSelector [path]) sel = true) := by
  have hcontains : (NewSelector [path]).Contains sel = true := by
    unfold Selector.Contains
    rw [hempty]
    rfl
  refine ⟨?_, ?_, ?_⟩
  · intro hs
    unfold Scope.Matches
    simp [hs]
  · intro hs hneg
    obtain ⟨kv, hkv, hmem⟩ := (mem_selectorsOf e sel).1 hsel
    have hbad : Scope.partOk (NewSelector [path]) sel = false := by
      simp [Scope.partOk, hcontains, hneg]
    unfold Scope.Matches
    simp only [hs, Bool.false_eq_true, if_false]
    cases hall : e.Selectors.all
        (fun sel => sel.2.all (fun part => Scope.partOk (NewSelector [path]) part))
    · rfl
    · rw [List.all_eq_true] at hall
      have := hall kv hkv
      rw [List.all_eq_true] at this
      rw [this sel hmem] at hbad
      exact absurd hbad (by decide)
  · intro hneg
    simp [Scope.partOk, hcontains, hneg]

/-- An expression with a negated empty selector on the path `text.list.md`. -/
theorem empty_selector_Matches_witness :
    ({ Value := [], Negated := true } : Selector) ∈ selectorsOf emptyNegatedScope ∧
    Selector.Sections { Value := [], Negated := true } = [] ∧
    (NewSelector ["text.list.md".toList]).isSized = false ∧
    emptyNegatedScope.Matches "text.list.md".toList = false :=
  ⟨by decide, by decide, by decide,
    (empty_selector_Matches emptyNegatedScope "text.list.md".toList
      { Value := [], Negated := true } (by decide) (by decide)).2.1 (by decide) rfl⟩

/-! ## The masking primitive -/

theorem occursAt_zero_iff (s sub : List Char) :
    occursAt s sub 0 ↔ sub.isPrefixOf s = true := by
  unfold occursAt
  rw [List.isPrefixOf_iff_prefix, List.prefix_iff_eq_take, List.drop_zero]
  exact eq_comm

theorem occursAt_succ_cons (c : Char) (s sub : List Char) (i : Nat) :
    occursAt (c :: s) sub (i + 1) ↔ occursAt s sub i := by
  unfold occursAt
  rw [List.drop_succ_cons]

/-- Every occurrence lies inside the string, an empty `sub` apart. -/
theorem occursAt_le_length (s sub : List Char) (i : Nat) (h : occursAt s sub i)
    (hne : sub ≠ []) : i < s.length := by
  by_contra hle
  unfold occursAt at h
  rw [List.drop_eq_nil_of_le (by omega)] at h
  simp at h
  exact hne h

theorem first_occurrence_le_length (s sub : List Char) (i : Nat) (h : occursAt s sub i)
    (hfirst : ∀ j < i, ¬ occursAt s sub j) : i ≤ s.length := by
  by_cases hne : sub = []
  · subst hne
    have h0 : occursAt s [] 0 := by simp [occursAt]
    have : ¬ 0 < i := fun hlt => hfirst 0 hlt h0
    omega
  · exact Nat.le_of_lt (occursAt_le_length s sub i h hne)

/-- `Index` returns -1 when there is no occurrence. -/
theorem Index_of_absent (s sub : List Char) (h : ∀ i, ¬ occursAt s sub i) :
    Index s sub = -1 := by
  induction s with
  | nil =>
    have h0 : ¬ sub.isPrefixOf [] = true := fun e => h 0 ((occursAt_zero_iff [] sub).2 e)
    rw [Index]
    simp [h0]
  | cons c rest ih =>
    have h0 : ¬ sub.isPrefixOf (c :: rest) = true :=
      fun e => h 0 ((occursAt_zero_iff _ sub).2 e)
    have hr : Index rest sub = -1 :=
      ih (fun i e => h (i + 1) ((occursAt_succ_cons c rest sub i).2 e))
    rw [Index]
    simp [h0, hr]

/-- `Index` returns the index of the first occurrence. -/
theorem Index_of_first (s sub : List Char) (i : Nat) (h : occursAt s sub i)
    (hfirst : ∀ j < i, ¬ occursAt s sub j) : Index s sub = (i : Int) := by
  induction s generalizing i with
  | nil =>
    have hi : i = 0 := by
      have := first_occurrence_le_length [] sub i h hfirst
      simpa using this
    subst hi
    rw [Index]
    simp [(occursAt_zero_iff [] sub).1 h]
  | cons c rest ih =>
    cases i with
    | zero =>
      rw [Index]
      simp [(occursAt_zero_iff _ sub).1 h]
    | succ k =>
      have h0 : ¬ sub.isPrefixOf (c :: rest) = true :=
        fun e => hfirst 0 (Nat.succ_pos k) ((occursAt_zero_iff _ sub).2 e)
      have hr : Index rest sub = (k : Int) :=
        ih k ((occursAt_succ_cons c rest sub k).1 h)
          (fun j hj e => hfirst (j + 1) (by omega) ((occursAt_succ_cons c rest sub j).2 e))
      have hk : ¬ ((k : Int) < 0) := by omega
      rw [Index]
      simp [h0, hr, hk]

theorem find_range_of_absent (P : Nat → Bool) (n : Nat) (h : ∀ i, P i = false) :
    (List.range n).find? P = none := by
  rw [List.find?_eq_none]
  intro x _
  simp [h x]

theorem find_range_of_first (P : Nat → Bool) (n i : Nat) (hi : i < n) (h : P i = true)
    (hfirst : ∀ j < i, P j = false) : (List.range n).find? P = some i := by
  induction n with
  | zero => omega
  | succ m ih =>
    rw [List.range_succ, List.find?_append]
    by_cases him : i < m
    · rw [ih him]
      rfl
    · have hm : i = m := by omega
      subst hm
      have hnone : (List.range i).find? P = none := by
        rw [List.find?_eq_none]
        intro x hx
        simp [hfirst x (List.mem_range.1 hx)]
      rw [hnone]
      simp [List.find?_cons, h]

/-- A string is the text before an occurrence, the occurrence, and the text after it. -/
theorem eq_of_occursAt (s sub : List Char) (i : Nat) (h : occursAt s sub i) :
    s = s.take i ++ sub ++ s.drop (i + sub.length) := by
  unfold occursAt at h
  have h1 : s.drop i = sub ++ s.drop (i + sub.length) := by
    conv_lhs => rw [← List.take_append_drop sub.length (s.drop i)]
    rw [h, List.drop_drop]
  conv_lhs => rw [← List.take_append_drop i s]
  rw [h1, List.append_assoc]

theorem Map_eq_mask (sub : List Char) (filler : Char) :
    Map (fun r => if r ≠ '\n' then filler else r) sub = mask sub filler := by
  unfold Map mask
  apply List.map_congr_left
  intro c _
  by_cases hc : c = '\n' <;> simp [hc]

/-- The result of `Substitute` when `sub` does not occur. -/
theorem Substitute_of_absent (src sub : List Char) (filler : Char)
    (h : ∀ i, ¬ occursAt src sub i) : Substitute src sub filler = (src, false) := by
  unfold Substitute
  simp [Index_of_absent src sub h]

/-- The result of `Substitute` when the first occurrence of `sub` is at index `i`. -/
theorem Substitute_of_first (src sub : List Char) (filler : Char) (i : Nat)
    (h : occursAt src sub i) (hfirst : ∀ j < i, ¬ occursAt src sub j) :
    Substitute src sub filler =
      (src.take i ++ mask sub filler ++ src.drop (i + sub.length), true) := by
  have hidx := Index_of_first src sub i h hfirst
  have hnn : ¬ ((i : Int) < 0) := by omega
  unfold Substitute
  simp only [hidx, hnn, if_false, Map_eq_mask, Prod.mk.injEq, and_true]
  unfold ReplaceFirst
  by_cases heq : sub = mask sub filler
  · rw [if_pos heq, ← heq]
    exact eq_of_occursAt src sub i h
  · rw [if_neg heq]
    simp only [hidx, hnn, if_false, Int.toNat_ofNat]
    by_cases hlen : sub.length = 0
    · have hsub : sub = [] := List.length_eq_zero.1 hlen
      exact absurd (by simp [hsub, mask]) heq
    · simp [hlen]

theorem SubstituteRef_of_absent (src sub : List Char) (filler : Char)
    (h : ∀ i, ¬ occursAt src sub i) : SubstituteRef src sub filler = (src, false) := by
  unfold SubstituteRef
  rw [find_range_of_absent _ _ (fun i => by simp [h i])]

theorem SubstituteRef_of_first (src sub : List Char) (filler : Char) (i : Nat)
    (h : occursAt src sub i) (hfirst : ∀ j < i, ¬ occursAt src sub j) :
    SubstituteRef src sub filler =
      (src.take i ++ mask sub filler ++ src.drop (i + sub.length), true) := by
  unfold SubstituteRef
  have hi : i < src.length + 1 :=
    Nat.lt_succ_of_le (first_occurrence_le_length src sub i h hfirst)
  rw [find_range_of_first _ _ i hi (by simp [h]) (fun j hj => by simp [hfirst j hj])]

/-- Either `sub` does not occur in `src` or it has a first occurrence. -/
theorem absent_or_first (src sub : List Char) :
    (∀ i, ¬ occursAt src sub i) ∨
      ∃ i, occursAt src sub i ∧ ∀ j < i, ¬ occursAt src sub j := by
  by_cases hex : ∃ i, occursAt src sub i
  · right
    exact ⟨Nat.find hex, Nat.find_spec hex, fun j hj => Nat.find_min hex hj⟩
  · left
    exact fun i hi => hex ⟨i, hi⟩

theorem length_mask (sub : List Char) (filler : Char) :
    (mask sub filler).length = sub.length := by
  simp [mask]

theorem mask_newline_iff (sub : List Char) (filler : Char) (hf : filler ≠ '\n') (k : Nat) :
    (mask sub filler)[k]? = some '\n' ↔ sub[k]? = some '\n' := by
  unfold mask
  rw [List.getElem?_map]
  cases sub[k]? with
  | none => simp
  | some c =>
    by_cases hc : c = '\n'
    · simp [hc]
    · simp [hc, hf]

/-- Masking a piece of a string keeps its length and the positions of its newlines. -/
theorem mask_frame (before after sub : List Char) (filler : Char) (hf : filler ≠ '\n') :
    (before ++ mask sub filler ++ after).length = (before ++ sub ++ after).length ∧
    ∀ k : Nat, (before ++ mask sub filler ++ after)[k]? = some '\n' ↔
      (before ++ sub ++ after)[k]? = some '\n' := by
  have hm := length_mask sub filler
  constructor
  · simp only [List.length_append, hm]
  · intro k
    simp only [List.getElem?_append, List.length_append, hm]
    by_cases h1 : k < before.length
    · simp [h1, Nat.lt_add_right _ h1]
    · by_cases h2 : k < before.length + sub.length
      · simp only [h1, h2, if_true, if_false]
        exact mask_newline_iff sub filler hf _
      · simp [h1, h2]

/-- C9: `Substitute(src, sub, filler)` equals its reference definition: when `sub` does not
occur in `src` the result is `(src, false)`; otherwise, with `i` the index of the first
occurrence, it is the text before `i`, the mask of `sub` and the text after the
occurrence, with `true`, so that the text before the first occurrence and everything after
it is unchanged. -/
theorem Substitute_eq_reference (src sub : List Char) (filler : Char) :
    Substitute src sub filler = SubstituteRef src sub filler ∧
    ((∀ i, ¬ occursAt src sub i) → Substitute src sub filler = (src, false)) ∧
    (∀ i, occursAt src sub i → (∀ j < i, ¬ occursAt src sub j) →
      Substitute src sub filler =
        (src.take i ++ mask sub filler ++ src.drop (i + sub.length), true) ∧
      (Substitute src sub filler).1.take i = src.take i ∧
      (Substitute src sub filler).1.drop (i + sub.length) = src.drop (i + sub.length)) := by
  refine ⟨?_, Substitute_of_absent src sub filler, ?_⟩
  · rcases absent_or_first src sub with h | ⟨i, h, hfirst⟩
    · rw [Substitute_of_absent src sub filler h, SubstituteRef_of_absent src sub filler h]
    · rw [Substitute_of_first src sub filler i h hfirst,
        SubstituteRef_of_first src sub filler i h hfirst]
  · intro i h hfirst
    have hle := first_occurrence_le_length src sub i h hfirst
    have hlen : (src.take i).length = i := by rw [List.length_take]; omega
    rw [Substitute_of_first src sub filler i h hfirst]
    refine ⟨rfl, ?_, ?_⟩
    · simp only [List.append_assoc]
      rw [List.take_append_eq_append_take, hlen]
      simp
    · simp only
      rw [List.drop_append_eq_append_drop]
      have hl2 : (src.take i ++ mask sub filler).length = i + sub.length := by
        rw [List.length_append, hlen, length_mask]
      rw [hl2]
      simp [List.drop_eq_nil_of_le (Nat.le_of_eq hl2)]

/-- The first occurrence of `bc` in `a bc bc` is at index 2. -/
theorem Substitute_eq_reference_witness :
    occursAt "a bc bc".toList "bc".toList 2 ∧
    (∀ j < 2, ¬ occursAt "a bc bc".toList "bc".toList j) ∧
    Substitute "a bc bc".toList "bc".toList '*' =
      (("a bc bc".toList).take 2 ++ mask "bc".toList '*' ++
        ("a bc bc".toList).drop (2 + "bc".toList.length), true) :=
  ⟨by decide, by decide,
    ((Substitute_eq_reference "a bc bc".toList "bc".toList '*').2.2 2 (by decide)
      (by decide)).1⟩

/-- C10: for every `src`, every `sub` and every filler character other than newline, the
string returned by `Substitute` has as many characters as `src`, and a position holds a
newline in the result if and only if it holds a newline in `src`. -/
theorem Substitute_preserves_lines (src sub : List Char) (filler : Char)
    (hf : filler ≠ '\n') :
    (Substitute src sub filler).1.length = src.length ∧
    ∀ k : Nat, (Substitute src sub filler).1[k]? = some '\n' ↔ src[k]? = some '\n' := by
  rcases absent_or_first src sub with h | ⟨i, h, hfirst⟩
  · rw [Substitute_of_absent src sub filler h]
    exact ⟨rfl, fun k => Iff.rfl⟩
  · rw [Substitute_of_first src sub filler i h hfirst]
    have hsrc := eq_of_occursAt src sub i h
    have hframe := mask_frame (src.take i) (src.drop (i + sub.length)) sub filler hf
    rw [← hsrc] at hframe
    exact hframe

/-- Masking `bc` in `a bc bc` with `*`. -/
theorem Substitute_preserves_lines_witness :
    '*' ≠ '\n' ∧
    (Substitute "a bc bc".toList "bc".toList '*').1.length = "a bc bc".toList.length :=
  ⟨by decide, (Substitute_preserves_lines "a bc bc".toList "bc".toList '*' (by decide)).1⟩

/-! ## Byte length and further occurrences under masking -/

/-- C11, on the code: masking the two-byte character of `é a` with `*` gives `* a`: the byte
length drops from 4 to 3 and the byte offset of `a` moves from 3 to 2, while the number of
characters stays 3. -/
theorem Substitute_shrinks_multibyte :
    byteLen "é a".toList = 4 ∧
    (Substitute "é a".toList "é".toList '*').1 = "* a".toList ∧
    byteLen (Substitute "é a".toList "é".toList '*').1 = 3 ∧
    byteIndex "é a".toList "a".toList = 3 ∧
    byteIndex (Substitute "é a".toList "é".toList '*').1 "a".toList = 2 ∧
    (Substitute "é a".toList "é".toList '*').1.length = "é a".toList.length := by
  decide

theorem occursAt_frame_at (before after mid sub : List Char) (h : mid.length = sub.length) :
    occursAt (before ++ mid ++ after) sub before.length ↔ mid = sub := by
  unfold occursAt
  rw [List.append_assoc, List.drop_left, ← h, List.take_left]

theorem occursAt_frame_after (before after mid sub : List Char) (h : mid.length = sub.length)
    (j : Nat) (hj : before.length + sub.length ≤ j) :
    occursAt (before ++ mid ++ after) sub j ↔ occursAt (before ++ sub ++ after) sub j := by
  unfold occursAt
  have h1 : (before ++ mid).length ≤ j := by rw [List.length_append, h]; exact hj
  have h2 : (before ++ sub).length ≤ j := by rw [List.length_append]; exact hj
  have hl : (before ++ mid).length = (before ++ sub).length := by
    rw [List.length_append, List.length_append, h]
  have e1 : List.drop j (before ++ mid ++ after) =
      List.drop (j - (before ++ sub).length) after := by
    rw [List.drop_append_eq_append_drop, List.drop_eq_nil_of_le h1, hl, List.nil_append]
  have e2 : List.drop j (before ++ sub ++ after) =
      List.drop (j - (before ++ sub).length) after := by
    rw [List.drop_append_eq_append_drop, List.drop_eq_nil_of_le h2, List.nil_append]
  rw [e1, e2]

theorem mask_ne_of_mem (sub : List Char) (filler : Char)
    (h : ∃ c ∈ sub, c ≠ filler ∧ c ≠ '\n') : mask sub filler ≠ sub := by
  obtain ⟨c, hc, h1, h2⟩ := h
  intro e
  induction sub with
  | nil => simp at hc
  | cons d ds ih =>
    simp only [mask, List.map_cons, List.cons.injEq] at e
    rcases List.mem_cons.1 hc with hd | hd
    · subst hd
      have := e.1
      simp only [h2, if_false] at this
      exact h1 this.symm
    · exact ih hd e.2

/-- C12, as stated, fails: only the first occurrence is masked, so `ab ab` becomes `** ab`,
which still holds `ab` at index 3; and masking `a*` in `aa*` gives `a**`, which holds `a*`
at index 0, before the masked place. -/
theorem Substitute_no_further_occurrence_counterexample :
    (∃ i, occursAt (Substitute "ab ab".toList "ab".toList '*').1 "ab".toList i) ∧
    (∃ i, occursAt (Substitute "aa*".toList "a*".toList '*').1 "a*".toList i) :=
  ⟨⟨3, by decide⟩, ⟨0, by decide⟩⟩

/-- C12, amended: `Substitute(src, sub, '*')` masks the first occurrence of `sub` only. When
`sub` does not occur in `src` the result has no occurrence of it. Otherwise, at the index of
the first occurrence the result holds the mask of `sub`, which differs from `sub` as soon as
`sub` has a character that is neither `*` nor a newline, and from the end of that
occurrence on the result has exactly the occurrences of `sub` that `src` has. -/
theorem Substitute_masks_first_only (src sub : List Char) :
    ((∀ i, ¬ occursAt src sub i) → ∀ i, ¬ occursAt (Substitute src sub '*').1 sub i) ∧
    (∀ i, occursAt src sub i → (∀ j < i, ¬ occursAt src sub j) →
      occursAt (Substitute src sub '*').1 (mask sub '*') i ∧
      ((∃ c ∈ sub, c ≠ '*' ∧ c ≠ '\n') → ¬ occursAt (Substitute src sub '*').1 sub i) ∧
      (∀ j, i + sub.length ≤ j →
        (occursAt (Substitute src sub '*').1 sub j ↔ occursAt src sub j))) := by
  constructor
  · intro h
    rw [Substitute_of_absent src sub '*' h]
    exact h
  · intro i h hfirst
    have hle := first_occurrence_le_length src sub i h hfirst
    have hlen : (src.take i).length = i := by rw [List.length_take]; omega
    have hm := length_mask sub '*'
    have hsrc := eq_of_occursAt src sub i h
    rw [Substitute_of_first src sub '*' i h hfirst]
    simp only
    refine ⟨?_, ?_, ?_⟩
    · have := (occursAt_frame_at (src.take i) (src.drop (i + sub.length)) (mask sub '*')
        (mask sub '*') rfl).2 rfl
      rw [hlen] at this
      exact this
    · intro hc hocc
      have := (occursAt_frame_at (src.take i) (src.drop (i + sub.length)) (mask sub '*')
        sub hm)
      rw [hlen] at this
      exact mask_ne_of_mem sub '*' hc (this.1 hocc)
    · intro j hj
      have := occursAt_frame_after (src.take i) (src.drop (i + sub.length)) (mask sub '*')
        sub hm j (by rw [hlen]; exact hj)
      rw [← hsrc] at this
      exact this

/-- The first occurrence of `ab` in `ab ab` is at index 0, and the occurrence at index 3
stays. -/
theorem Substitute_masks_first_only_witness :
    occursAt "ab ab".toList "ab".toList 0 ∧
    (∀ j < 0, ¬ occursAt "ab ab".toList "ab".toList j) ∧
    (∃ c ∈ "ab".toList, c ≠ '*' ∧ c ≠ '\n') ∧
    ¬ occursAt (Substitute "ab ab".toList "ab".toList '*').1 "ab".toList 0 :=
  ⟨by decide, by decide, by decide,
    ((Substitute_masks_first_only "ab ab".toList "ab".toList).2 0 (by decide)
      (by decide)).2.1 (by decide)⟩

/-! ## Sections, `Has`, `Equal` and the candidate as a set -/

/-- C15: for every selector, `Sections` is the in-order concatenation of the dot-splits of
the elements of `Value`, and `Has(x)` is true if and only if `x` is an element of the
sections, so that every section satisfies `Has`; `text.comment.line.py` has the sections
`text`, `comment`, `line`, `py`, and `Has("py")` is false for the selector `text.comment`. -/
theorem Sections_and_Has :
    (∀ s : Selector, s.Sections = (s.Value.map (fun m => Split m '.')).flatten) ∧
    (∀ (s : Selector) (x : List Char), s.Has x = true ↔ x ∈ s.Sections) ∧
    (∀ s : Selector, ∀ x ∈ s.Sections, s.Has x = true) ∧
    Selector.Sections { Value := ["text.comment.line.py".toList], Negated := false } =
      ["text".toList, "comment".toList, "line".toList, "py".toList] ∧
    Selector.Has { Value := ["text.comment".toList], Negated := false } "py".toList = false := by
  refine ⟨Sections_eq, fun s x => StringInSlice_iff x s.Sections,
    fun s x hx => (StringInSlice_iff x s.Sections).2 hx, by decide, by decide⟩

/-- The section `line` of the selector `text.comment.line.py`. -/
theorem Sections_and_Has_witness :
    "line".toList ∈
      Selector.Sections { Value := ["text.comment.line.py".toList], Negated := false } ∧
    Selector.Has { Value := ["text.comment.line.py".toList], Negated := false }
      "line".toList = true :=
  ⟨by decide, Sections_and_Has.2.2.1 _ _ (by decide)⟩

theorem Equal_loop_iff (i : Nat) (value other : List (List Char)) :
    Selector.Equal.loop i value other = true ↔ (other.drop i).take value.length = value := by
  induction value generalizing i with
  | nil => simp [Selector.Equal.loop]
  | cons v rest ih =>
    rw [Selector.Equal.loop]
    by_cases hi : i < other.length
    · rw [List.drop_eq_getElem_cons hi, List.length_cons, List.take_succ_cons,
        List.getElem?_eq_getElem hi, List.cons.injEq, ← ih (i + 1)]
      by_cases hv : other[i] = v
      · simp [hv]
      · simp [hv]
    · rw [List.getElem?_eq_none (by omega), List.drop_eq_nil_of_le (by omega)]
      simp

/-- What `Equal` decides: the equality of the two `Value` sequences. -/
theorem Equal_iff_Value (s sel : Selector) :
    s.Equal sel = true ↔ s.Value = sel.Value := by
  unfold Selector.Equal
  by_cases hlen : s.Value.length = sel.Value.length
  · simp only [hlen, if_true, Equal_loop_iff, List.drop_zero]
    rw [List.take_length]
    exact eq_comm
  · simp only [hlen, if_false]
    constructor
    · intro h; exact absurd h (by decide)
    · intro h; exact absurd (congrArg List.length h) hlen

/-- C16, on the code: `Equal` compares the `Value` sequences and never reads `Negated`; the
selectors `a` and `~a` differ and `Equal` returns true for them. -/
theorem Equal_ignores_Negated :
    (∀ s sel : Selector, s.Equal sel = true ↔ s.Value = sel.Value) ∧
    Selector.Equal { Value := ["a".toList], Negated := false }
      { Value := ["a".toList], Negated := true } = true ∧
    ({ Value := ["a".toList], Negated := false } : Selector) ≠
      { Value := ["a".toList], Negated := true } :=
  ⟨Equal_iff_Value, by decide, by decide⟩

/-- The test of the loop of `Matches` reads the candidate through the membership in its
sections only. -/
theorem partOk_congr (c1 c2 : Selector) (part : Selector)
    (h : ∀ x, x ∈ c1.Sections ↔ x ∈ c2.Sections) :
    Scope.partOk c1 part = Scope.partOk c2 part := by
  have hc : c1.Contains part = c2.Contains part := by
    rw [Bool.eq_iff_iff]
    unfold Selector.Contains
    rw [AllStringsInSlice_iff, AllStringsInSlice_iff]
    exact ⟨fun h1 s hs => (h s).1 (h1 s hs), fun h1 s hs => (h s).2 (h1 s hs)⟩
  unfold Scope.partOk
  rw [hc]

/-- C17, as stated, fails: the paths ` a.b.c` and `b. a.c` have the same dot-split segments
and are not sized, but only the first is trimmed to the segment `a`, and the scope `a`
matches the first and not the second; likewise `~a.b.c` and `b.~a.c` for the leading `~`. -/
theorem Matches_same_segments_counterexample :
    ((∀ x ∈ Split " a.b.c".toList '.', x ∈ Split "b. a.c".toList '.') ∧
      (∀ x ∈ Split "b. a.c".toList '.', x ∈ Split " a.b.c".toList '.') ∧
      (NewSelector [" a.b.c".toList]).isSized = false ∧
      (NewSelector ["b. a.c".toList]).isSized = false ∧
      (NewScope ["a".toList]).Matches " a.b.c".toList ≠
        (NewScope ["a".toList]).Matches "b. a.c".toList) ∧
    ((∀ x ∈ Split "~a.b.c".toList '.', x ∈ Split "b.~a.c".toList '.') ∧
      (∀ x ∈ Split "b.~a.c".toList '.', x ∈ Split "~a.b.c".toList '.') ∧
      (NewSelector ["~a.b.c".toList]).isSized = false ∧
      (NewSelector ["b.~a.c".toList]).isSized = false ∧
      (NewScope ["a".toList]).Matches "~a.b.c".toList ≠
        (NewScope ["a".toList]).Matches "b.~a.c".toList) := by
  decide

/-- C17, amended: for every scope expression and any two candidate paths that are both not
sized and whose candidates have the same set of segments, the segments of a candidate
being the dot-split segments of the path without its surrounding white space and leading
`~`, `Matches` returns the same result; for paths without surrounding white space and
leading `~` these are the dot-split segments of the path itself. -/
theorem Matches_same_segments (e : Scope) (p1 p2 : List Char)
    (h1 : (NewSelector [p1]).isSized = false) (h2 : (NewSelector [p2]).isSized = false) :
    ((∀ x, x ∈ candidateSegments p1 ↔ x ∈ candidateSegments p2) →
      e.Matches p1 = e.Matches p2) ∧
    (TrimSpace p1 = p1 → HasPrefixTilde p1 = false → TrimSpace p2 = p2 →
      HasPrefixTilde p2 = false → (∀ x, x ∈ Split p1 '.' ↔ x ∈ Split p2 '.') →
      e.Matches p1 = e.Matches p2) := by
  have key : (∀ x, x ∈ (NewSelector [p1]).Sections ↔ x ∈ (NewSelector [p2]).Sections) →
      e.Matches p1 = e.Matches p2 := by
    intro h
    unfold Scope.Matches
    simp only [h1, h2, Bool.false_eq_true, if_false]
    congr 1
    funext sel
    congr 1
    funext part
    exact partOk_congr _ _ part h
  constructor
  · intro h
    apply key
    rw [candidate_Sections_eq, candidate_Sections_eq]
    exact h
  · intro a1 b1 a2 b2 h
    apply key
    rw [candidate_Sections_of_plain p1 a1 b1, candidate_Sections_of_plain p2 a2 b2]
    exact h

/-- The paths `text.list.md` and `md.list.text.list`, the same segments reordered and
repeated, under the scope `~list`. -/
theorem Matches_same_segments_witness :
    (NewSelector ["text.list.md".toList]).isSized = false ∧
    (NewSelector ["md.list.text.list".toList]).isSized = false ∧
    (∀ x, x ∈ candidateSegments "text.list.md".toList ↔
      x ∈ candidateSegments "md.list.text.list".toList) ∧
    (NewScope ["~list".toList]).Matches "text.list.md".toList =
      (NewScope ["~list".toList]).Matches "md.list.text.list".toList :=
  have hset : ∀ x, x ∈ candidateSegments "text.list.md".toList ↔
      x ∈ candidateSegments "md.list.text.list".toList := by
    have e1 : candidateSegments "text.list.md".toList =
        ["text".toList, "list".toList, "md".toList] := by decide
    have e2 : candidateSegments "md.list.text.list".toList =
        ["md".toList, "list".toList, "text".toList, "list".toList] := by decide
    intro x
    rw [e1, e2]
    simp only [List.mem_cons, List.mem_nil_iff, or_false]
    tauto
  ⟨by decide, by decide, hset,
    (Matches_same_segments (NewScope ["~list".toList]) "text.list.md".toList
      "md.list.text.list".toList (by decide) (by decide)).1 hset⟩

/-! ## The scope of a tag history -/

theorem mapLookup_mem (m : List (List Char × List Char)) (k v : List Char)
    (h : mapLookup m k = (v, true)) : (k, v) ∈ m := by
  induction m with
  | nil => simp [mapLookup] at h
  | cons e rest ih =>
    obtain ⟨k0, v0⟩ := e
    rw [mapLookup] at h
    by_cases hk : k0 = k
    · simp only [hk, if_true, Prod.mk.injEq, and_true] at h
      simp [hk, h]
    · simp only [hk, if_false] at h
      simp [ih h]

theorem mapLookup_not_found (m : List (List Char × List Char)) (k : List Char)
    (h : (mapLookup m k).2 = false) : (mapLookup m k).1 = [] := by
  induction m with
  | nil => simp [mapLookup]
  | cons e rest ih =>
    obtain ⟨k0, v0⟩ := e
    rw [mapLookup] at h ⊢
    by_cases hk : k0 = k
    · simp [hk] at h
    · simp only [hk, if_false] at h ⊢
      exact ih h

theorem TrimPrefix_dot_of_head (s : List Char) (h : ∀ c ∈ s.head?, c ≠ '.') :
    TrimPrefix s ".".toList = s := by
  cases s with
  | nil => rfl
  | cons c cs =>
    have hc : c ≠ '.' := h c (by simp)
    have : (".".toList.isPrefixOf (c :: cs)) = false := by
      have e : ".".toList = ['.'] := rfl
      rw [e]
      simp [List.isPrefixOf, Ne.symm hc]
    unfold TrimPrefix
    rw [this]
    simp

theorem TrimPrefix_dot_cons (s : List Char) : TrimPrefix ('.' :: s) ".".toList = s := by
  have e : ".".toList = ['.'] := rfl
  rw [e]
  simp [TrimPrefix, List.isPrefixOf]

/-- No entry of `tagToScope` is empty or begins with a dot. -/
theorem tagToScope_head : ∀ e ∈ tagToScope, e.2.head? ≠ some '.' ∧ e.2 ≠ [] := by
  decide

theorem Join_two (a b : List Char) : Join [a, b] ".".toList = a ++ '.' :: b := by
  simp [Join]

theorem TrimPrefix_dot_append (scope rest : List Char) (h1 : scope.head? ≠ some '.')
    (h2 : scope ≠ []) : TrimPrefix (scope ++ rest) ".".toList = scope ++ rest := by
  apply TrimPrefix_dot_of_head
  cases scope with
  | nil => exact absurd rfl h2
  | cons c cs =>
    intro d hd
    simp only [List.cons_append, List.head?_cons, Option.mem_def, Option.some.injEq] at hd
    subst hd
    intro e
    exact h1 (by simp [e])

/-- The scope that `getScope` computes from the root after its normalization. -/
theorem getScope_cons (heading : List Char → Bool) (root : List Char)
    (rest : List (List Char)) (new ext : List Char) :
    getScope heading (root :: rest) new ext =
      some (TrimPrefix
        ((if !(mapLookup tagToScope (if root = "ul".toList then "li".toList
              else if root = "p".toList then "".toList else root)).2 &&
            heading (if root = "ul".toList then "li".toList
              else if root = "p".toList then "".toList else root)
          then "text.heading.".toList ++ (if root = "ul".toList then "li".toList
              else if root = "p".toList then "".toList else root)
          else (mapLookup tagToScope (if root = "ul".toList then "li".toList
              else if root = "p".toList then "".toList else root)).1) ++ '.' :: new)
        ".".toList ++ ext) := by
  simp only [getScope, Join_two]

/-- C14: for every non-empty tag history, leaf scope `new` and extension `ext`, `getScope`
returns the base, `new` and `ext` in a row, where the base is `text.list.` when the root tag
is `ul`, empty when it is `p`, the table entry of the root and a dot when the root has one,
`text.heading.`, the root and a dot when the root has no table entry and matches the
heading pattern, and empty otherwise; the history `blockquote, p, b` with leaf `strong`
and extension `.md` yields `text.blockquote.strong.md`. The heading pattern is a parameter
and is taken not to match the empty string. -/
theorem getScope_eq_base (heading : List Char → Bool) (root : List Char)
    (rest : List (List Char)) (new ext : List Char)
    (hh : root = "p".toList → heading [] = false) :
    getScope heading (root :: rest) new ext = some (scopeBase heading root ++ new ++ ext) ∧
    getScope heading ["blockquote".toList, "p".toList, "b".toList] "strong".toList
      ".md".toList = some "text.blockquote.strong.md".toList := by
  have main : ∀ (root : List Char) (rest : List (List Char)) (new ext : List Char),
      (root = "p".toList → heading [] = false) →
      getScope heading (root :: rest) new ext =
        some (scopeBase heading root ++ new ++ ext) := by
    intro root rest new ext hh
    rw [getScope_cons]
    unfold scopeBase
    by_cases hul : root = "ul".toList
    · have hl : mapLookup tagToScope "li".toList = ("text.list".toList, true) := by decide
      simp only [hul, if_true, hl, Bool.not_true, Bool.false_and, Bool.false_eq_true,
        if_false]
      rw [TrimPrefix_dot_append _ _ (by decide) (by decide)]
      rfl
    · by_cases hp : root = "p".toList
      · have hl : mapLookup tagToScope "".toList = ([], false) := by decide
        have he : heading "".toList = false := hh hp
        subst hp
        have hne : ¬ ("p".toList = "ul".toList) := by decide
        simp only [hne, if_true, if_false, hl, he, Bool.not_false, Bool.and_false,
          Bool.false_eq_true, List.nil_append]
        rw [TrimPrefix_dot_cons]
      · simp only [hul, hp, if_false]
        by_cases hf : (mapLookup tagToScope root).2 = true
        · have hmem : (root, (mapLookup tagToScope root).1) ∈ tagToScope :=
            mapLookup_mem _ _ _ (by rw [← hf])
          obtain ⟨g1, g2⟩ := tagToScope_head _ hmem
          simp only [hf, Bool.not_true, Bool.false_and, Bool.false_eq_true, if_false,
            if_true]
          rw [TrimPrefix_dot_append _ _ g1 g2]
          simp
        · simp only [Bool.not_eq_true] at hf
          have hempty := mapLookup_not_found _ _ hf
          by_cases hd : heading root = true
          · simp only [hf, hd, Bool.not_false, Bool.and_self, if_true, Bool.false_eq_true,
              if_false]
            rw [List.append_assoc, TrimPrefix_dot_append _ _ (by decide) (by decide)]
            simp
          · simp only [Bool.not_eq_true] at hd
            simp only [hf, hd, Bool.not_false, Bool.and_false, Bool.false_eq_true, if_false,
              hempty, List.nil_append]
            rw [TrimPrefix_dot_cons]
  refine ⟨main root rest new ext hh, ?_⟩
  rw [main _ _ _ _ (fun h => absurd h (by decide))]
  rfl

/-- The history `h2, em` with leaf `emphasis`, under the pattern of the HTML heading tags. -/
theorem getScope_eq_base_witness :
    ("h2".toList = "p".toList → headingTag [] = false) ∧
    getScope headingTag ["h2".toList, "em".toList] "emphasis".toList ".md".toList =
      some (scopeBase headingTag "h2".toList ++ "emphasis".toList ++ ".md".toList) :=
  ⟨fun _ => rfl,
    (getScope_eq_base headingTag "h2".toList ["em".toList] "emphasis".toList ".md".toList
      (fun _ => rfl)).1⟩

/-! ## The dispatch of blocks -/

theorem Join_nil_sep (elems : List (List Char)) : Join elems [] = elems.flatten := by
  induction elems with
  | nil => rfl
  | cons e rest ih =>
    cases rest with
    | nil => simp [Join]
    | cons e2 rest2 =>
      simp [Join, ih]

theorem lintSizedScopes_eq {ε : Type} (l : Linter ε) (ResetComments : File → File)
    (f : File) :
    lintSizedScopes l ResetComments f =
      lintSizedScopes.loop l (ResetComments f)
        [summaryBlock (ResetComments f), rawBlock (ResetComments f)] [] := by
  simp only [lintSizedScopes, summaryBlock, rawBlock, Join_nil_sep]

/-- C18: `lintSizedScopes` dispatches to `lintBlock`, in this order, the block scoped
`summary` and the extension built from the summary buffer and then the block scoped `raw`
and the extension whose text is the concatenation of the source lines: exactly these two
when the first dispatch returns no error; when it returns an error, that error is returned
and the raw block is not dispatched. -/
theorem lintSizedScopes_dispatch {ε : Type} (l : Linter ε) (ResetComments : File → File)
    (f : File) :
    (summaryBlock (ResetComments f)).Scope = "summary".toList ++ (ResetComments f).RealExt ∧
    (summaryBlock (ResetComments f)).Text = (ResetComments f).Summary ∧
    (rawBlock (ResetComments f)).Scope = "raw".toList ++ (ResetComments f).RealExt ∧
    (rawBlock (ResetComments f)).Text = (ResetComments f).Lines.flatten ∧
    (∀ f1 err,
      l.lintBlock (ResetComments f) (summaryBlock (ResetComments f))
        (ResetComments f).Lines.length 0 true = (f1, some err) →
      (lintSizedScopes l ResetComments f).2.2 = some err ∧
      (lintSizedScopes l ResetComments f).2.1.map Call.blk =
        [summaryBlock (ResetComments f)]) ∧
    (∀ f1,
      l.lintBlock (ResetComments f) (summaryBlock (ResetComments f))
        (ResetComments f).Lines.length 0 true = (f1, none) →
      (lintSizedScopes l ResetComments f).2.2 =
        (l.lintBlock f1 (rawBlock (ResetComments f)) f1.Lines.length 0 true).2 ∧
      (lintSizedScopes l ResetComments f).2.1 =
        [Call.lintBlock (ResetComments f) (summaryBlock (ResetComments f))
            (ResetComments f).Lines.length 0 true,
          Call.lintBlock f1 (rawBlock (ResetComments f)) f1.Lines.length 0 true] ∧
      (lintSizedScopes l ResetComments f).2.1.map Call.blk =
        [summaryBlock (ResetComments f), rawBlock (ResetComments f)]) := by
  refine ⟨rfl, rfl, rfl, rfl, ?_, ?_⟩
  · intro f1 err h
    rw [lintSizedScopes_eq, lintSizedScopes.loop, h]
    exact ⟨rfl, rfl⟩
  · intro f1 h
    rw [lintSizedScopes_eq, lintSizedScopes.loop, h]
    simp only [lintSizedScopes.loop]
    cases hr : l.lintBlock f1 (rawBlock (ResetComments f)) f1.Lines.length 0 true with
    | mk f2 e =>
      cases e with
      | none => exact ⟨rfl, rfl, rfl⟩
      | some err => exact ⟨rfl, rfl, rfl⟩

/-- A document whose two sized blocks are checked without error. -/
theorem lintSizedScopes_dispatch_witness :
    (quietLinter []).lintBlock (id exampleFile) (summaryBlock (id exampleFile))
      (id exampleFile).Lines.length 0 true = (exampleFile, none) ∧
    (lintSizedScopes (quietLinter []) id exampleFile).2.1.map Call.blk =
      [summaryBlock (id exampleFile), rawBlock (id exampleFile)] :=
  ⟨rfl, ((lintSizedScopes_dispatch (quietLinter []) id exampleFile).2.2.2.2.2
    exampleFile rfl).2.2⟩

theorem lintTags_loop_skip {ε : Type} (l : Linter ε) (f : File) (state : walker)
    (ignored : Bool) (attrs : List Attribute) (calls : List Call)
    (h : ∀ a ∈ attrs, a.Key ≠ "alt".toList ∨ ignored = true) :
    lintTags.loop l f state ignored attrs calls = (f, calls, none) := by
  induction attrs with
  | nil => rfl
  | cons a rest ih =>
    have ha : ¬ (a.Key = "alt".toList ∧ ignored = false) := by
      rcases h a (by simp) with h1 | h1
      · exact fun e => h1 e.1
      · exact fun e => by rw [h1] at e; exact absurd e.2 (by decide)
    rw [lintTags.loop, if_neg ha]
    exact ih (fun b hb => h b (by simp [hb]))

/-- The loop of `lintTags` over attributes of which exactly one is an `alt`, when `alt` is not
ignored: one call of `lintBlock`, whose file and error are returned. -/
theorem lintTags_loop_one {ε : Type} (l : Linter ε) (f : File) (state : walker)
    (before after : List Attribute) (x : List Char)
    (hb : ∀ a ∈ before, a.Key ≠ "alt".toList) (ha : ∀ a ∈ after, a.Key ≠ "alt".toList) :
    lintTags.loop l f state false
        (before ++ { Key := "alt".toList, Val := x } :: after) [] =
      ((l.lintBlock f (Block.block state x "text.attr.alt".toList) state.lines 0 false).1,
        [Call.lintBlock f (Block.block state x "text.attr.alt".toList) state.lines 0 false],
        (l.lintBlock f (Block.block state x "text.attr.alt".toList) state.lines 0 false).2) := by
  induction before with
  | nil =>
    have hscope : "text.attr.".toList ++ "alt".toList = "text.attr.alt".toList := rfl
    rw [List.nil_append, lintTags.loop]
    simp only [true_and, if_true, hscope]
    cases hr : l.lintBlock f (Block.block state x "text.attr.alt".toList) state.lines 0
        false with
    | mk f1 e =>
      cases e with
      | none =>
        simp only
        rw [lintTags_loop_skip l f1 state false after _ (fun a h => Or.inl (ha a h))]
        rfl
      | some err => rfl
  | cons b rest ih =>
    have hk : ¬ (b.Key = "alt".toList ∧ false = false) := fun e => hb b (by simp) e.1
    rw [List.cons_append, lintTags.loop, if_neg hk]
    exact ih (fun a h => hb a (by simp [h]))

/-- C19: for an `img` token carrying one `alt` attribute with value `x`, `lintTags`
dispatches exactly one block, with text `x` and scope `text.attr.alt`, when `alt` is not
among the configured skipped scopes: it calls `lintBlock` once, on that block and the file
it was given, and returns the file and the error of that call; when `alt` is among the
skipped scopes it dispatches no block and returns the file as it is, without error; for a
token whose tag is not `img` it dispatches nothing. -/
theorem lintTags_dispatch {ε : Type} (l : Linter ε) (f : File) (state : walker) :
    (∀ tok : Token, tok.Data ≠ "img".toList → lintTags l f state tok = (f, [], none)) ∧
    (∀ (before after : List Attribute) (x : List Char),
      (∀ a ∈ before, a.Key ≠ "alt".toList) → (∀ a ∈ after, a.Key ≠ "alt".toList) →
      ("alt".toList ∉ l.SkippedScopes →
        lintTags l f state
            { Data := "img".toList,
              Attr := before ++ { Key := "alt".toList, Val := x } :: after } =
          ((l.lintBlock f (Block.block state x "text.attr.alt".toList) state.lines 0
              false).1,
            [Call.lintBlock f (Block.block state x "text.attr.alt".toList) state.lines 0
              false],
            (l.lintBlock f (Block.block state x "text.attr.alt".toList) state.lines 0
              false).2) ∧
        (lintTags l f state
            { Data := "img".toList,
              Attr := before ++ { Key := "alt".toList, Val := x } :: after }).2.1.map
            Call.blk =
          [Block.block state x "text.attr.alt".toList] ∧
        (Block.block state x "text.attr.alt".toList).Text = x ∧
        (Block.block state x "text.attr.alt".toList).Scope = "text.attr.alt".toList) ∧
      ("alt".toList ∈ l.SkippedScopes →
        lintTags l f state
            { Data := "img".toList,
              Attr := before ++ { Key := "alt".toList, Val := x } :: after } =
          (f, [], none))) := by
  constructor
  · intro tok h
    unfold lintTags
    simp only [if_neg h]
  · intro before after x hb ha
    constructor
    · intro hs
      have hi : StringInSlice "alt".toList l.SkippedScopes = false := by
        cases hc : StringInSlice "alt".toList l.SkippedScopes
        · rfl
        · exact absurd ((StringInSlice_iff _ _).1 hc) hs
      have hrun : lintTags l f state
            { Data := "img".toList,
              Attr := before ++ { Key := "alt".toList, Val := x } :: after } =
          ((l.lintBlock f (Block.block state x "text.attr.alt".toList) state.lines 0
              false).1,
            [Call.lintBlock f (Block.block state x "text.attr.alt".toList) state.lines 0
              false],
            (l.lintBlock f (Block.block state x "text.attr.alt".toList) state.lines 0
              false).2) := by
        simp only [lintTags, hi, if_true]
        exact lintTags_loop_one l f state before after x hb ha
      refine ⟨hrun, ?_, rfl, rfl⟩
      rw [hrun]
      rfl
    · intro hs
      have hi : StringInSlice "alt".toList l.SkippedScopes = true :=
        (StringInSlice_iff _ _).2 hs
      simp only [lintTags, hi, if_true]
      exact lintTags_loop_skip l f state true _ [] (fun a _ => Or.inr rfl)

/-- An `img` token with the attributes `src` and `alt` under a linter whose check changes
the file and returns an error, and a `p` token. -/
theorem lintTags_dispatch_witness :
    ({ Data := "p".toList, Attr := [] } : Token).Data ≠ "img".toList ∧
    lintTags (stoppingLinter []) exampleFile { tagHistory := [], lines := 1, context := [] }
      { Data := "p".toList, Attr := [] } = (exampleFile, [], none) ∧
    (∀ a ∈ [({ Key := "src".toList, Val := "u".toList } : Attribute)],
      a.Key ≠ "alt".toList) ∧
    "alt".toList ∉ (stoppingLinter []).SkippedScopes ∧
    lintTags (stoppingLinter []) exampleFile { tagHistory := [], lines := 1, context := [] }
        { Data := "img".toList,
          Attr := [{ Key := "src".toList, Val := "u".toList }] ++
            { Key := "alt".toList, Val := "x".toList } :: [] } =
      ({ exampleFile with Comments := ["text.attr.alt".toList] },
        [Call.lintBlock exampleFile
          (Block.block { tagHistory := [], lines := 1, context := [] } "x".toList
            "text.attr.alt".toList) 1 0 false],
        some "stop".toList) :=
  ⟨by decide,
    (lintTags_dispatch (stoppingLinter []) exampleFile
      { tagHistory := [], lines := 1, context := [] }).1 _ (by decide),
    by decide, by decide,
    ((lintTags_dispatch (stoppingLinter []) exampleFile
      { tagHistory := [], lines := 1, context := [] }).2
      [{ Key := "src".toList, Val := "u".toList }] [] "x".toList (by decide)
      (by decide)).1 (by decide) |>.1⟩

theorem lintScope_loop_skip {ε : Type} (l : Linter ε) (heading : List Char → Bool)
    (f : File) (state : walker) (txt : List Char) (before rest : List (List Char))
    (h : ∀ t ∈ before, scopedTag heading t = false) :
    lintScope.loop l heading f state txt (before ++ rest) =
      lintScope.loop l heading f state txt rest := by
  induction before with
  | nil => rfl
  | cons t ts ih =>
    have ht : ¬ (((mapLookup tagToScope t).2 && !StringInSlice t inlineTags) ||
        heading t) = true := by
      have := h t (by simp)
      unfold scopedTag at this
      rw [this]
      decide
    rw [List.cons_append, lintScope.loop]
    simp only [ht, if_false]
    exact ih (fun u hu => h u (by simp [hu]))

theorem blockScope_eq (tag : List Char) :
    (if (!(mapLookup tagToScope tag).2) = true then "text.heading.".toList ++ tag
      else (mapLookup tagToScope tag).1) = blockScope tag := by
  unfold blockScope
  cases (mapLookup tagToScope tag).2 <;> simp

/-- What `lintScope` does at the first tag of the history that gives the block its scope:
it appends to the summary for the two scopes of the guard, counts the scope, and hands the
block to `lintBlock`, whose file and error it returns. -/
theorem lintScope_loop_scoped {ε : Type} (l : Linter ε) (heading : List Char → Bool)
    (f : File) (state : walker) (txt : List Char) (tag : List Char)
    (rest : List (List Char)) (h : scopedTag heading tag = true) :
    lintScope.loop l heading f state txt (tag :: rest) =
      ((l.lintBlock
          (countScope
            (if (mapLookup tagToScope tag).1 = "text.blockquote".toList ∨
                (mapLookup tagToScope tag).1 = "text.list".toList then appendSummary f txt
              else f)
            (blockScope tag))
          (Block.block state (TrimLeftSpaces txt) (blockScope tag ++ f.RealExt))
          state.lines 0 false).1,
        [Call.lintBlock
          (countScope
            (if (mapLookup tagToScope tag).1 = "text.blockquote".toList ∨
                (mapLookup tagToScope tag).1 = "text.list".toList then appendSummary f txt
              else f)
            (blockScope tag))
          (Block.block state (TrimLeftSpaces txt) (blockScope tag ++ f.RealExt))
          state.lines 0 false],
        (l.lintBlock
          (countScope
            (if (mapLookup tagToScope tag).1 = "text.blockquote".toList ∨
                (mapLookup tagToScope tag).1 = "text.list".toList then appendSummary f txt
              else f)
            (blockScope tag))
          (Block.block state (TrimLeftSpaces txt) (blockScope tag ++ f.RealExt))
          state.lines 0 false).2) := by
  have ht : (((mapLookup tagToScope tag).2 && !StringInSlice tag inlineTags) ||
      heading tag) = true := h
  rw [lintScope.loop]
  simp only [ht, if_true, blockScope_eq]
  by_cases hs : (mapLookup tagToScope tag).1 = "text.blockquote".toList ∨
      (mapLookup tagToScope tag).1 = "text.list".toList
  · simp only [if_pos hs]
    rfl
  · simp only [if_neg hs]
    rfl

/-- C20, as stated, fails: for a history that resolves to a heading scope the summary
buffer is left as it is. Under the pattern of the HTML heading tags the history `h1` gives
the block the scope `text.heading.h1.md`, and the file handed to `lintBlock` still has the
summary `s`, not `s` followed by the text and a blank line. -/
theorem lintScope_heading_counterexample :
    scopedTag headingTag "h1".toList = true ∧
    (lintScope (quietLinter []) headingTag exampleFile
        { tagHistory := ["h1".toList], lines := 1, context := [] }
        "Title".toList).2.1.map (fun c => c.blk.Scope) = ["text.heading.h1.md".toList] ∧
    (lintScope (quietLinter []) headingTag exampleFile
        { tagHistory := ["h1".toList], lines := 1, context := [] }
        "Title".toList).2.1.map (fun c => c.file.Summary) = [exampleFile.Summary] ∧
    (lintScope (quietLinter []) headingTag exampleFile
        { tagHistory := ["h1".toList], lines := 1, context := [] }
        "Title".toList).1.Summary ≠ exampleFile.Summary ++ ("Title".toList ++ ['\n', '\n']) := by
  decide

/-- C20, amended: when the first tag of the history that gives the block its scope (a tag
with a table entry that is not inline, or a tag that matches the heading pattern) has the
scope `text.blockquote` or `text.list`, `lintScope` appends the text and a blank line to
the summary buffer of the document, counts the scope, and hands the document and the
block to `lintBlock`, whose document and error it returns; when that tag has another
scope, in particular the scope of a heading, the summary buffer is not changed before the
block is handed to `lintBlock`; when no tag of the history gives a scope, the text and a
blank line are appended and the block is handed to `lintProse`. -/
theorem lintScope_summary {ε : Type} (l : Linter ε) (heading : List Char → Bool) (f : File)
    (state : walker) (txt : List Char) :
    (∀ (before : List (List Char)) (tag : List Char) (after : List (List Char)),
      state.tagHistory = before ++ tag :: after →
      (∀ t ∈ before, scopedTag heading t = false) → scopedTag heading tag = true →
      (((mapLookup tagToScope tag).1 = "text.blockquote".toList ∨
          (mapLookup tagToScope tag).1 = "text.list".toList) →
        lintScope l heading f state txt =
          ((l.lintBlock (countScope (appendSummary f txt) (blockScope tag))
              (Block.block state (TrimLeftSpaces txt) (blockScope tag ++ f.RealExt))
              state.lines 0 false).1,
            [Call.lintBlock (countScope (appendSummary f txt) (blockScope tag))
              (Block.block state (TrimLeftSpaces txt) (blockScope tag ++ f.RealExt))
              state.lines 0 false],
            (l.lintBlock (countScope (appendSummary f txt) (blockScope tag))
              (Block.block state (TrimLeftSpaces txt) (blockScope tag ++ f.RealExt))
              state.lines 0 false).2) ∧
        (countScope (appendSummary f txt) (blockScope tag)).Summary =
          f.Summary ++ (txt ++ ['\n', '\n']) ∧
        (lintScope l heading f state txt).2.1.map (fun c => c.file.Summary) =
          [f.Summary ++ (txt ++ ['\n', '\n'])]) ∧
      (¬ ((mapLookup tagToScope tag).1 = "text.blockquote".toList ∨
          (mapLookup tagToScope tag).1 = "text.list".toList) →
        lintScope l heading f state txt =
          ((l.lintBlock (countScope f (blockScope tag))
              (Block.block state (TrimLeftSpaces txt) (blockScope tag ++ f.RealExt))
              state.lines 0 false).1,
            [Call.lintBlock (countScope f (blockScope tag))
              (Block.block state (TrimLeftSpaces txt) (blockScope tag ++ f.RealExt))
              state.lines 0 false],
            (l.lintBlock (countScope f (blockScope tag))
              (Block.block state (TrimLeftSpaces txt) (blockScope tag ++ f.RealExt))
              state.lines 0 false).2) ∧
        (countScope f (blockScope tag)).Summary = f.Summary ∧
        (lintScope l heading f state txt).2.1.map (fun c => c.file.Summary) =
          [f.Summary]) ∧
      ((mapLookup tagToScope tag).2 = false →
        ¬ ((mapLookup tagToScope tag).1 = "text.blockquote".toList ∨
          (mapLookup tagToScope tag).1 = "text.list".toList) ∧
        blockScope tag = "text.heading.".toList ++ tag ∧
        (lintScope l heading f state txt).2.1.map (fun c => c.blk.Scope) =
          ["text.heading.".toList ++ tag ++ f.RealExt] ∧
        (lintScope l heading f state txt).2.1.map (fun c => c.file.Summary) =
          [f.Summary])) ∧
    ((∀ t ∈ state.tagHistory, scopedTag heading t = false) →
      lintScope l heading f state txt =
        ((l.lintProse (appendSummary f txt) (Block.block state txt "txt".toList)
            state.lines).1,
          [Call.lintProse (appendSummary f txt) (Block.block state txt "txt".toList)
            state.lines],
          (l.lintProse (appendSummary f txt) (Block.block state txt "txt".toList)
            state.lines).2) ∧
      (appendSummary f txt).Summary = f.Summary ++ (txt ++ ['\n', '\n']) ∧
      (lintScope l heading f state txt).2.1.map (fun c => c.file.Summary) =
        [f.Summary ++ (txt ++ ['\n', '\n'])]) := by
  constructor
  · intro before tag after hhist hbefore htag
    have hrun : lintScope l heading f state txt =
        lintScope.loop l heading f state txt (tag :: after) := by
      unfold lintScope
      rw [hhist, lintScope_loop_skip l heading f state txt before _ hbefore]
    have hcalls := lintScope_loop_scoped l heading f state txt tag after htag
    rw [← hrun] at hcalls
    have hpos : ((mapLookup tagToScope tag).1 = "text.blockquote".toList ∨
          (mapLookup tagToScope tag).1 = "text.list".toList) →
        lintScope l heading f state txt =
          ((l.lintBlock (countScope (appendSummary f txt) (blockScope tag))
              (Block.block state (TrimLeftSpaces txt) (blockScope tag ++ f.RealExt))
              state.lines 0 false).1,
            [Call.lintBlock (countScope (appendSummary f txt) (blockScope tag))
              (Block.block state (TrimLeftSpaces txt) (blockScope tag ++ f.RealExt))
              state.lines 0 false],
            (l.lintBlock (countScope (appendSummary f txt) (blockScope tag))
              (Block.block state (TrimLeftSpaces txt) (blockScope tag ++ f.RealExt))
              state.lines 0 false).2) := by
      intro hs
      rw [hcalls]
      simp only [if_pos hs]
    have hneg : ¬ ((mapLookup tagToScope tag).1 = "text.blockquote".toList ∨
          (mapLookup tagToScope tag).1 = "text.list".toList) →
        lintScope l heading f state txt =
          ((l.lintBlock (countScope f (blockScope tag))
              (Block.block state (TrimLeftSpaces txt) (blockScope tag ++ f.RealExt))
              state.lines 0 false).1,
            [Call.lintBlock (countScope f (blockScope tag))
              (Block.block state (TrimLeftSpaces txt) (blockScope tag ++ f.RealExt))
              state.lines 0 false],
            (l.lintBlock (countScope f (blockScope tag))
              (Block.block state (TrimLeftSpaces txt) (blockScope tag ++ f.RealExt))
              state.lines 0 false).2) := by
      intro hs
      rw [hcalls]
      simp only [if_neg hs]
    refine ⟨?_, ?_, ?_⟩
    · intro hs
      refine ⟨hpos hs, rfl, ?_⟩
      rw [hpos hs]
      rfl
    · intro hs
      refine ⟨hneg hs, rfl, ?_⟩
      rw [hneg hs]
      rfl
    · intro hf
      have hempty := mapLookup_not_found _ _ hf
      have hne : ¬ ((mapLookup tagToScope tag).1 = "text.blockquote".toList ∨
          (mapLookup tagToScope tag).1 = "text.list".toList) := by
        rw [hempty]
        decide
      have hscope : blockScope tag = "text.heading.".toList ++ tag := by
        unfold blockScope
        rw [hf]
        rfl
      refine ⟨hne, hscope, ?_, ?_⟩
      · rw [hneg hne, hscope]
        rfl
      · rw [hneg hne]
        rfl
  · intro hall
    have hrun : lintScope l heading f state txt =
        lintScope.loop l heading f state txt [] := by
      unfold lintScope
      have := lintScope_loop_skip l heading f state txt state.tagHistory [] hall
      rw [List.append_nil] at this
      exact this
    have hprose : lintScope l heading f state txt =
        ((l.lintProse (appendSummary f txt) (Block.block state txt "txt".toList)
            state.lines).1,
          [Call.lintProse (appendSummary f txt) (Block.block state txt "txt".toList)
            state.lines],
          (l.lintProse (appendSummary f txt) (Block.block state txt "txt".toList)
            state.lines).2) := by
      rw [hrun, lintScope.loop]
      rfl
    refine ⟨hprose, rfl, ?_⟩
    rw [hprose]
    rfl

/-- The history `blockquote, p`, which resolves to the scope `text.blockquote`, under a
linter whose check changes the document and returns an error. -/
theorem lintScope_summary_witness :
    (["blockquote".toList, "p".toList] : List (List Char)) =
      [] ++ "blockquote".toList :: ["p".toList] ∧
    scopedTag headingTag "blockquote".toList = true ∧
    lintScope (stoppingLinter []) headingTag exampleFile
        { tagHistory := ["blockquote".toList, "p".toList], lines := 1, context := [] }
        " Quote".toList =
      ({ exampleFile with
          Summary := exampleFile.Summary ++ (" Quote".toList ++ ['\n', '\n']),
          Metrics := [("blockquote".toList, 1)],
          Comments := ["text.blockquote.md".toList] },
        [Call.lintBlock
          { exampleFile with
            Summary := exampleFile.Summary ++ (" Quote".toList ++ ['\n', '\n']),
            Metrics := [("blockquote".toList, 1)] }
          (Block.block
            { tagHistory := ["blockquote".toList, "p".toList], lines := 1, context := [] }
            "Quote".toList "text.blockquote.md".toList) 1 0 false],
        some "stop".toList) :=
  ⟨rfl, by decide,
    ((lintScope_summary (stoppingLinter []) headingTag exampleFile
      { tagHistory := ["blockquote".toList, "p".toList], lines := 1, context := [] }
      " Quote".toList).1 [] "blockquote".toList ["p".toList] rfl
      (fun t ht => absurd ht (by simp)) (by decide)).1 (by decide) |>.1⟩

/-! ## The spans of `TextToContext` -/

/-- C13, on the code: on the line `é a a`, with one token per word, the spans recorded are
1 to 2, 3 to 3 and 5 to 5, while the two words `a` are the bytes 4 and 6 of the line: the
mask of the two-byte `é` is one byte, so the later offsets are one too small and the
slices at the second and third span are spaces. On the line `a a a` the spans are 1, 3
and 5 and every slice is the word. -/
theorem TextToContext_multibyte_spans :
    TextToContext id wordTokens "é a a".toList =
      some [{ Line := 1, Token := { Text := "é".toList, Tag := "NN".toList }, Span := [1, 2] },
        { Line := 1, Token := { Text := "a".toList, Tag := "NN".toList }, Span := [3, 3] },
        { Line := 1, Token := { Text := "a".toList, Tag := "NN".toList }, Span := [5, 5] }] ∧
    sliceBytes "é a a".toList (3 - 1) 3 = some " ".toList ∧
    sliceBytes "é a a".toList (5 - 1) 5 = some " ".toList ∧
    sliceBytes "é a a".toList (4 - 1) 4 = some "a".toList ∧
    sliceBytes "é a a".toList (6 - 1) 6 = some "a".toList ∧
    TextToContext id wordTokens "a a a".toList =
      some [{ Line := 1, Token := { Text := "a".toList, Tag := "NN".toList }, Span := [1, 1] },
        { Line := 1, Token := { Text := "a".toList, Tag := "NN".toList }, Span := [3, 3] },
        { Line := 1, Token := { Text := "a".toList, Tag := "NN".toList }, Span := [5, 5] }] := by
  decide

/-! ## The masked context -/

theorem sameLines_refl (a : List Char) : sameLines a a :=
  ⟨rfl, fun _ => Iff.rfl⟩

theorem sameLines_trans (a b c : List Char) (h1 : sameLines a b) (h2 : sameLines b c) :
    sameLines a c :=
  ⟨h1.1.trans h2.1, fun k => (h1.2 k).trans (h2.2 k)⟩

/-- One masking step keeps the line structure, for a filler that is not a newline. -/
theorem Substitute_sameLines (src sub : List Char) (filler : Char) (hf : filler ≠ '\n') :
    sameLines (Substitute src sub filler).1 src := by
  rcases absent_or_first src sub with h | ⟨i, h, hfirst⟩
  · rw [Substitute_of_absent src sub filler h]
    exact sameLines_refl src
  · rw [Substitute_of_first src sub filler i h hfirst]
    have hsrc := eq_of_occursAt src sub i h
    have hframe := mask_frame (src.take i) (src.drop (i + sub.length)) sub filler hf
    rw [← hsrc] at hframe
    exact hframe

theorem updateCtx_words_sameLines (ctx : List Char) (ws : List (List Char)) :
    sameLines (updateCtx.words ctx ws) ctx := by
  induction ws generalizing ctx with
  | nil => exact sameLines_refl ctx
  | cons w rest ih =>
    rw [updateCtx.words]
    exact sameLines_trans _ _ _ (ih _) (Substitute_sameLines ctx w '@' (by decide))

theorem updateCtx_lines_sameLines (ctx : List Char) (ss : List (List Char)) :
    sameLines (updateCtx.lines ctx ss) ctx := by
  induction ss generalizing ctx with
  | nil => exact sameLines_refl ctx
  | cons s rest ih =>
    rw [updateCtx.lines]
    refine sameLines_trans _ _ _ (ih _) ?_
    have h1 := Substitute_sameLines ctx s '@' (by decide)
    by_cases hfound : (Substitute ctx s '@').2 = true
    · simp only [hfound, Bool.not_true, Bool.false_eq_true, if_false]
      exact h1
    · simp only [Bool.not_eq_true] at hfound
      simp only [hfound, Bool.not_false, if_true]
      exact sameLines_trans _ _ _ (updateCtx_words_sameLines _ _) h1

theorem updateCtx_sameLines (ctx txt : List Char) (tokt : TokenType) :
    sameLines (updateCtx ctx txt tokt) ctx := by
  unfold updateCtx
  split
  · exact updateCtx_lines_sameLines ctx _
  · exact sameLines_refl ctx

theorem updateContext_sameLines (ctx : List Char) (queue : List (List Char)) :
    sameLines (updateContext ctx queue) ctx := by
  induction queue generalizing ctx with
  | nil => exact sameLines_refl ctx
  | cons s rest ih =>
    rw [updateContext]
    exact sameLines_trans _ _ _ (ih _) (updateCtx_sameLines ctx s TokenType.TextToken)

/-- C21: for every context string, text and token type, `updateCtx(ctx, txt, tokt)` has as
many characters as `ctx`, with newlines at exactly the same positions, and so has
`updateContext(ctx, queue)` for every queue of strings. -/
theorem masked_context_keeps_lines (ctx txt : List Char) (tokt : TokenType)
    (queue : List (List Char)) :
    ((updateCtx ctx txt tokt).length = ctx.length ∧
      ∀ k : Nat, (updateCtx ctx txt tokt)[k]? = some '\n' ↔ ctx[k]? = some '\n') ∧
    ((updateContext ctx queue).length = ctx.length ∧
      ∀ k : Nat, (updateContext ctx queue)[k]? = some '\n' ↔ ctx[k]? = some '\n') :=
  ⟨updateCtx_sameLines ctx txt tokt, updateContext_sameLines ctx queue⟩

/-! ## The leading-space rule of `clean` -/

/-- Masking a text in itself masks the whole text. -/
theorem Substitute_self (txt : List Char) (filler : Char) :
    (Substitute txt txt filler).1 = mask txt filler := by
  have h0 : occursAt txt txt 0 := by simp [occursAt]
  rw [Substitute_of_first txt txt filler 0 h0 (fun j hj => absurd hj (Nat.not_lt_zero j))]
  simp

theorem starter_eq (txt : List Char) :
    StringInSlice [DecodeRuneInString txt]
        [".".toList, "?".toList, "!".toList, ",".toList, ":".toList, ";".toList] =
      startsWithPunct txt := by
  cases txt with
  | nil => decide
  | cons c cs =>
    have e1 : ".".toList = ['.'] := rfl
    have e2 : "?".toList = ['?'] := rfl
    have e3 : "!".toList = ['!'] := rfl
    have e4 : ",".toList = [','] := rfl
    have e5 : ":".toList = [':'] := rfl
    have e6 : ";".toList = [';'] := rfl
    rw [e1, e2, e3, e4, e5, e6, Bool.eq_iff_iff]
    simp only [DecodeRuneInString, startsWithPunct, StringInSlice_iff, List.mem_cons,
      List.cons.injEq, and_true, List.mem_nil_iff, or_false, Bool.or_eq_true,
      decide_eq_true_eq, or_assoc]

/-- The text that `clean` returns: the body, behind one space when the text is inline and
is not a starter, a starter being a text that begins with sentence punctuation while
`skip` is not set. -/
theorem clean_fst (txt attr : List Char) (skip inline : Bool) :
    (clean txt attr skip inline).1 =
      if inline = true ∧ ¬ (startsWithPunct txt = true ∧ skip = false) then
        ' ' :: cleanBody txt attr skip inline
      else cleanBody txt attr skip inline := by
  have hbody : (if (skip || decide (attr = txt) || inline) = true then
      (Substitute txt txt '*').1 else txt) = cleanBody txt attr skip inline := by
    unfold cleanBody isMasked
    rw [Substitute_self]
  have hsp : " ".toList = [' '] := rfl
  unfold clean
  simp only [starter_eq, hbody, hsp]
  cases inline <;> cases skip <;> cases startsWithPunct txt <;> simp

/-- C22, as stated, fails: the inline text `.x` is masked, since `inline` is set, and
begins with sentence punctuation; the rule as stated prepends one space, and `clean`
returns the mask `**` without a space, because it looks at `skip` and not at the
masking. -/
theorem clean_leading_space_counterexample :
    startsWithPunct ".x".toList = true ∧
    isMasked ".x".toList [] false true = true ∧
    ¬ (startsWithPunct ".x".toList = true ∧ isMasked ".x".toList [] false true = false) ∧
    (clean ".x".toList [] false true).1 = "**".toList ∧
    (clean ".x".toList [] false true).1 ≠ ' ' :: cleanBody ".x".toList [] false true := by
  decide

/-- C22, amended: if the first character of the text is sentence punctuation and `skip` is
not set, `clean` inserts no leading space; otherwise, for inline text, exactly one space
is prepended to the returned text; text that is not inline never gets a leading space.
The returned text is else the mask of the whole text when `skip` is set, the text equals
`attr` or `inline` is set, and the text itself when none of these holds. -/
theorem clean_leading_space (txt attr : List Char) (skip inline : Bool) :
    (startsWithPunct txt = true → skip = false →
      (clean txt attr skip inline).1 = cleanBody txt attr skip inline) ∧
    (inline = true → (startsWithPunct txt = false ∨ skip = true) →
      (clean txt attr skip inline).1 = ' ' :: cleanBody txt attr skip inline) ∧
    (inline = false → (clean txt attr skip inline).1 = cleanBody txt attr skip inline) := by
  rw [clean_fst]
  refine ⟨?_, ?_, ?_⟩
  · intro h1 h2
    simp [h1, h2]
  · intro h1 h2
    rcases h2 with h2 | h2 <;> simp [h1, h2]
  · intro h1
    simp [h1]

/-- The inline text `x`, which gets its space, and the inline text `.x`, which does not. -/
theorem clean_leading_space_witness :
    (clean "x".toList [] false true).1 = ' ' :: cleanBody "x".toList [] false true ∧
    (clean ".x".toList [] false true).1 = cleanBody ".x".toList [] false true :=
  ⟨(clean_leading_space "x".toList [] false true).2.1 rfl (Or.inl (by decide)),
    (clean_leading_space ".x".toList [] false true).1 (by decide) rfl⟩

/-! ## `shouldBeSkipped` -/

/-- The loop of `shouldBeSkipped` from the index `i` down, when everything from `i` on is
a `span`: it returns true exactly when the nearest tag before `i` that is not a `span` is
a `tt` and is not the last tag. -/
theorem shouldBeSkipped_loop_iff (h : List (List Char)) (i : Nat) (hi : i ≤ h.length)
    (hspans : ∀ j, i ≤ j → j < h.length → h[j]? = some "span".toList) :
    shouldBeSkipped.loop h h.length i = true ↔
      ∃ m, m < i ∧ h[m]? = some "tt".toList ∧
        (∀ j, m < j → j < h.length → h[j]? = some "span".toList) ∧ m + 1 ≠ h.length := by
  induction i with
  | zero => simp [shouldBeSkipped.loop]
  | succ i ih =>
    rw [shouldBeSkipped.loop]
    by_cases hs : h[i]? = some "span".toList
    · have hspans2 : ∀ j, i ≤ j → j < h.length → h[j]? = some "span".toList := by
        intro j hj1 hj2
        by_cases hji : j = i
        · rw [hji]; exact hs
        · exact hspans j (by omega) hj2
      rw [if_pos hs, ih (by omega) hspans2]
      constructor
      · rintro ⟨m, hm, rest⟩
        exact ⟨m, by omega, rest⟩
      · rintro ⟨m, hm, htt, rest⟩
        have hmi : m ≠ i := by
          intro e
          rw [e, hs] at htt
          exact absurd htt (by decide)
        exact ⟨m, by omega, htt, rest⟩
    · rw [if_neg hs]
      simp only [Bool.and_eq_true, decide_eq_true_eq]
      constructor
      · rintro ⟨htt, hne⟩
        exact ⟨i, by omega, htt, fun j hj1 hj2 => hspans j (by omega) hj2, hne⟩
      · rintro ⟨m, hm, htt, hafter, hne⟩
        have hmi : m = i := by
          by_contra hmi
          exact hs (hafter i (by omega) (by omega))
        rw [hmi] at htt hne
        exact ⟨htt, hne⟩

/-- A history ends with a `tt` and one or more `span`, seen through its indices. -/
theorem ends_with_tt_spans_iff (h : List (List Char)) :
    (∃ m, m < h.length ∧ h[m]? = some "tt".toList ∧
        (∀ j, m < j → j < h.length → h[j]? = some "span".toList) ∧ m + 1 ≠ h.length) ↔
      ∃ (front : List (List Char)) (k : Nat), 0 < k ∧
        h = front ++ "tt".toList :: List.replicate k "span".toList := by
  constructor
  · rintro ⟨m, hm, htt, hafter, hne⟩
    refine ⟨h.take m, h.length - (m + 1), by omega, ?_⟩
    have hget : h[m] = "tt".toList := by
      rw [List.getElem?_eq_getElem hm] at htt
      exact Option.some.inj htt
    have htail : h.drop (m + 1) = List.replicate (h.length - (m + 1)) "span".toList := by
      apply List.ext_getElem?
      intro j
      rw [List.getElem?_drop, List.getElem?_replicate]
      by_cases hj : j < h.length - (m + 1)
      · rw [if_pos hj]
        exact hafter (m + 1 + j) (by omega) (by omega)
      · rw [if_neg hj]
        exact List.getElem?_eq_none (by omega)
    conv_lhs => rw [← List.take_append_drop m h]
    rw [List.drop_eq_getElem_cons hm, hget, htail]
  · rintro ⟨front, k, hk, rfl⟩
    refine ⟨front.length, by simp, ?_, ?_, by simp; omega⟩
    · rw [List.getElem?_append_right (Nat.le_refl _), Nat.sub_self, List.getElem?_cons_zero]
    · intro j hj1 hj2
      simp only [List.length_append, List.length_cons, List.length_replicate] at hj2
      rw [List.getElem?_append_right (by omega)]
      obtain ⟨d, hd⟩ : ∃ d, j - front.length = d + 1 := ⟨j - front.length - 1, by omega⟩
      rw [hd, List.getElem?_cons_succ, List.getElem?_replicate, if_pos (by omega)]

/-- C23: `shouldBeSkipped(tagHistory, ext)` returns true if and only if `ext` is `.rst` and
the tag history ends with a `tt` tag followed by one or more `span` tags; it returns false
for every other extension, for an empty history and for a history of spans only. -/
theorem shouldBeSkipped_iff (tagHistory : List (List Char)) (ext : List Char) :
    (shouldBeSkipped tagHistory ext = true ↔
      ext = ".rst".toList ∧
        ∃ (front : List (List Char)) (k : Nat), 0 < k ∧
          tagHistory = front ++ "tt".toList :: List.replicate k "span".toList) ∧
    (ext ≠ ".rst".toList → shouldBeSkipped tagHistory ext = false) ∧
    shouldBeSkipped [] ext = false ∧
    (∀ k : Nat, shouldBeSkipped (List.replicate k "span".toList) ext = false) := by
  have main : ∀ (hist : List (List Char)), (shouldBeSkipped hist ext = true ↔
      ext = ".rst".toList ∧
        ∃ (front : List (List Char)) (k : Nat), 0 < k ∧
          hist = front ++ "tt".toList :: List.replicate k "span".toList) := by
    intro hist
    unfold shouldBeSkipped
    by_cases he : ext = ".rst".toList
    · rw [if_pos he, shouldBeSkipped_loop_iff hist hist.length (Nat.le_refl _)
        (fun j hj1 hj2 => absurd hj2 (by omega)), ends_with_tt_spans_iff]
      exact ⟨fun h => ⟨he, h⟩, fun h => h.2⟩
    · rw [if_neg he]
      exact ⟨fun h => absurd h (by decide), fun h => absurd h.1 he⟩
  have hfalse : ∀ (hist : List (List Char)),
      ¬ (ext = ".rst".toList ∧ ∃ (front : List (List Char)) (k : Nat), 0 < k ∧
          hist = front ++ "tt".toList :: List.replicate k "span".toList) →
      shouldBeSkipped hist ext = false := by
    intro hist hn
    cases hc : shouldBeSkipped hist ext
    · rfl
    · exact absurd ((main hist).1 hc) hn
  refine ⟨main tagHistory, ?_, ?_, ?_⟩
  · intro he
    exact hfalse tagHistory (fun e => he e.1)
  · apply hfalse
    rintro ⟨_, front, k, _, e⟩
    have := congrArg List.length e
    simp at this
    omega
  · intro k
    apply hfalse
    rintro ⟨_, front, n, _, e⟩
    have hmem : "tt".toList ∈ List.replicate k "span".toList := by
      rw [e]
      simp
    have := List.eq_of_mem_replicate hmem
    exact absurd this (by decide)

/-- The history `p, tt, span` under another extension than `.rst`. -/
theorem shouldBeSkipped_iff_witness :
    ".md".toList ≠ ".rst".toList ∧
    shouldBeSkipped ["p".toList, "tt".toList, "span".toList] ".md".toList = false :=
  ⟨by decide,
    (shouldBeSkipped_iff ["p".toList, "tt".toList, "span".toList] ".md".toList).2.1
      (by decide)⟩

/-! ## List roots -/

/-- C24, as stated, fails for the root `ol`: only `ul` is rewritten to `li`, and `ol` has no
table entry, so under the pattern of the HTML heading tags the history `ol, li` with leaf
`strong` and extension `.md` yields `strong.md`, not `text.list.strong.md`. -/
theorem getScope_ol_counterexample :
    getScope headingTag ["ol".toList, "li".toList] "strong".toList ".md".toList =
      some "strong.md".toList ∧
    getScope headingTag ["ol".toList, "li".toList] "strong".toList ".md".toList ≠
      some ("text.list.".toList ++ "strong".toList ++ ".md".toList) := by
  decide

/-- C24, amended: for every tag history whose root is `ul`, every leaf scope `new` and
extension `ext`, `getScope` returns `text.list.`, `new` and `ext` in a row; a root `ol` is
not rewritten and has no table entry, so that `getScope` returns `new` and `ext` alone
when `ol` does not match the heading pattern, and the heading scope of `ol` before them
when it does. -/
theorem getScope_list_root (heading : List Char → Bool) (rest : List (List Char))
    (new ext : List Char) :
    getScope heading ("ul".toList :: rest) new ext =
      some ("text.list.".toList ++ new ++ ext) ∧
    (heading "ol".toList = false →
      getScope heading ("ol".toList :: rest) new ext = some (new ++ ext)) ∧
    (heading "ol".toList = true →
      getScope heading ("ol".toList :: rest) new ext =
        some ("text.heading.ol.".toList ++ new ++ ext)) := by
  have hli : mapLookup tagToScope "li".toList = ("text.list".toList, true) := by decide
  have hol : mapLookup tagToScope "ol".toList = ([], false) := by decide
  have hne1 : ¬ ("ol".toList = "ul".toList) := by decide
  have hne2 : ¬ ("ol".toList = "p".toList) := by decide
  refine ⟨?_, ?_, ?_⟩
  · rw [getScope_cons]
    simp only [if_true, hli, Bool.not_true, Bool.false_and, Bool.false_eq_true, if_false]
    rw [TrimPrefix_dot_append _ _ (by decide) (by decide)]
    rfl
  · intro hh
    rw [getScope_cons]
    simp only [hne1, hne2, if_false, hol, hh, Bool.not_false, Bool.and_false,
      Bool.false_eq_true, List.nil_append]
    rw [TrimPrefix_dot_cons]
  · intro hh
    rw [getScope_cons]
    simp only [hne1, hne2, if_false, hol, hh, Bool.not_false, Bool.and_self, if_true]
    rw [TrimPrefix_dot_append _ _ (by decide) (by decide)]
    rfl

/-- The history `ol, li` under the pattern of the HTML heading tags. -/
theorem getScope_list_root_witness :
    headingTag "ol".toList = false ∧
    getScope headingTag ("ol".toList :: ["li".toList]) "strong".toList ".md".toList =
      some ("strong".toList ++ ".md".toList) :=
  ⟨rfl, (getScope_list_root headingTag ["li".toList] "strong".toList ".md".toList).2.1 rfl⟩

end Vale
